import Mathlib

/-!
# Verification of the jsont JSON tokenizer (flamewing/sorcery-xtracobb)

Shallow embedding of the incremental JSON lexical scanner in
src/jsont.cc.  The input buffer is an immutable list of bytes
(modelled as a list of characters, one per byte); the scanner state
carries a cursor offset, the current token, the current error code and
the current value slice (recorded as start and length into the input,
mirroring the zero-copy string_view value of the C++ class).

The class declaration jsont.hh is not part of the sources; the small
inline members that live there (availableInput, endOfInput, setToken,
setError, hasValue, readComma, readEndBracket, construction) are
modelled from the specification and are marked as such.

The single place where the C++ scanner indexes the buffer without a
bounds check first (the sign probe in readExponent, jsont.cc line 159)
is embedded as an explicit out-of-bounds branch: scanning functions
return an Except value whose error constructor carries the state at
the moment such a read would happen.  Everywhere else the C++ code
tests endOfInput before indexing, and the embedding reads through
List.getD under the same guards.
-/

namespace jsont

/-- The closed token enumeration of jsont.hh (modelled from the spec,
section 3), including the internal Comma marker used by the comma /
trailing-comma checks of section 4.4. -/
inductive Token where
  | End
  | ObjectStart
  | ObjectEnd
  | ArrayStart
  | ArrayEnd
  | True
  | False
  | Null
  | Integer
  | Float
  | String
  | FieldName
  | Error
  | Comma
  deriving DecidableEq, Repr

/-- The closed error-code enumeration (spec section 3; the codes are the
ones matched in Tokenizer::errorMessage, jsont.cc lines 48-70). -/
inductive ErrorCode where
  | UnexpectedComma
  | UnexpectedTrailingComma
  | InvalidByte
  | PrematureEndOfInput
  | MalformedUnicodeEscapeSequence
  | MalformedNumberLiteral
  | UnterminatedString
  | SyntaxError
  | UnspecifiedError
  deriving DecidableEq, Repr

/-- Scanner state: the borrowed input buffer, the cursor offset, the
current token, the current error code, and the current value slice
(start offset and length into the input buffer).  The C++ class keeps
the slice as a string_view _value into _input; recording start and
length keeps the aliasing visible, which the numeric accessors need
(strtoll parses from _value.data() onwards, past the slice end). -/
structure Tokenizer where
  input : List Char
  offset : Nat
  token : Token
  error : ErrorCode
  valueStart : Nat
  valueLen : Nat
  deriving DecidableEq, Repr

/-- Modelled from the spec: construction over a buffer (spec section 3,
lifecycle): cursor at offset 0, no token yet (the End member of the
enumeration, its first value), error code at the defensive
UnspecifiedError fallback, empty value slice. -/
def mkT (l : List Char) : Tokenizer :=
  ⟨l, 0, Token.End, ErrorCode.UnspecifiedError, 0, 0⟩

/-- Modelled from the spec: number of input bytes at or after the
cursor (jsont.hh inline availableInput). -/
def availableInput (t : Tokenizer) : Nat :=
  t.input.length - t.offset

/-- Modelled from the spec: the cursor has consumed the whole buffer
(jsont.hh inline endOfInput). -/
def endOfInput (t : Tokenizer) : Bool :=
  availableInput t = 0

/-- Byte read at an index.  Every use is guarded by the same endOfInput
or availableInput test the C++ code performs before indexing, so the
default is never the value actually read. -/
def inputByte (t : Tokenizer) (i : Nat) : Char :=
  t.input.getD i 'A'

/-- Modelled from the spec: set the current token (jsont.hh inline
setToken; the C++ member also returns the token it stored). -/
def setToken (tok : Token) (t : Tokenizer) : Tokenizer :=
  { t with token := tok }

/-- Modelled from the spec: enter the Error token state with the given
code (jsont.hh inline setError). -/
def setError (e : ErrorCode) (t : Tokenizer) : Tokenizer :=
  { t with token := Token.Error, error := e }

/-- Modelled from the spec: the value-bearing tokens are FieldName,
String, Integer and Float (spec section 3). -/
def hasValue (t : Tokenizer) : Bool :=
  t.token = Token.Integer ∨ t.token = Token.Float ∨
    t.token = Token.String ∨ t.token = Token.FieldName

/-- The current value slice, as the sub-list of the input buffer the
C++ string_view _value designates. -/
def sliceOf (t : Tokenizer) : List Char :=
  (t.input.drop t.valueStart).take t.valueLen

/-- C locale isdigit restricted to one byte (jsont.cc safe_isdigit,
lines 23-25). -/
def isDigitChar (c : Char) : Bool :=
  '0' ≤ c ∧ c ≤ '9'

/-- C locale isalnum restricted to one byte (jsont.cc safe_isalnum,
lines 20-22). -/
def isAlnumChar (c : Char) : Bool :=
  isDigitChar c ∨ ('a' ≤ c ∧ c ≤ 'z') ∨ ('A' ≤ c ∧ c ≤ 'Z')

/-- jsont.cc is_plus_minus, lines 26-28. -/
def isPlusMinus (c : Char) : Bool :=
  c = '+' ∨ c = '-'

/-- jsont.cc is_exponent_introducer, lines 29-31. -/
def isExponentIntroducer (c : Char) : Bool :=
  c = 'E' ∨ c = 'e'

/-- The four whitespace bytes of the skipWS switch (jsont.cc lines
114-121, IETF RFC 4627). -/
def isJsonWS (c : Char) : Bool :=
  c = ' ' ∨ c = '\t' ∨ c = '\r' ∨ c = '\n'

/-- Loop body of Tokenizer::skipWS (jsont.cc lines 111-128), fuel-indexed;
the wrapper passes the available input, which bounds the iteration
count exactly, so the fuel-zero case coincides with the end-of-input
exit of the C++ loop. -/
def skipWSGo : Nat → Tokenizer → Tokenizer
  | 0, t => t
  | fuel + 1, t =>
    if endOfInput t then t
    else
      let b := inputByte t t.offset
      if isJsonWS b then
        skipWSGo fuel { t with offset := t.offset + 1 }
      else
        t

/-- Tokenizer::skipWS (jsont.cc lines 111-128): consume the four RFC
4627 whitespace bytes, putting the first significant byte back. -/
def skipWS (t : Tokenizer) : Tokenizer :=
  skipWSGo (availableInput t) t

/-- Exit path of Tokenizer::readDigits (jsont.cc lines 134-139): rewind
the byte that terminated the digit sequence, unless the cursor now
sits at end of input.  Note the C++ condition really is on the cursor
position after the post-increment, so a terminating non-digit byte
read at the last buffer position is not rewound. -/
def readDigitsEnd (digits : Nat) (t : Tokenizer) : Bool × Tokenizer :=
  if endOfInput t then (decide (digits > 0), t)
  else (decide (digits > 0), { t with offset := t.offset - 1 })

/-- Loop of Tokenizer::readDigits (jsont.cc lines 130-133), fuel-indexed
as in skipWSGo: consume bytes while they are digits; the loop condition
post-increments the cursor, so the terminating byte is consumed too and
readDigitsEnd decides whether it is put back. -/
def readDigitsGo : Nat → Nat → Tokenizer → Bool × Tokenizer
  | 0, digits, t => readDigitsEnd digits t
  | fuel + 1, digits, t =>
    if endOfInput t then readDigitsEnd digits t
    else
      let b := inputByte t t.offset
      let t1 := { t with offset := t.offset + 1 }
      if isDigitChar b then readDigitsGo fuel (digits + 1) t1
      else readDigitsEnd digits t1

/-- Tokenizer::readDigits (jsont.cc lines 130-140). -/
def readDigits (digits : Nat) (t : Tokenizer) : Bool × Tokenizer :=
  readDigitsGo (availableInput t) digits t

/-- Tokenizer::readFraction (jsont.cc lines 142-150). -/
def readFraction (t : Tokenizer) : Bool × Tokenizer :=
  if endOfInput t ∨ ¬(inputByte t t.offset = '.') then (true, t)
  else
    let t1 := setToken Token.Float t
    readDigits 0 { t1 with offset := t1.offset + 1 }

/-- Tokenizer::readExponent (jsont.cc lines 152-164).  After consuming
the introducer the C++ code probes _input[_offset] for a sign without
testing endOfInput first (line 159); when the introducer was the last
buffer byte that probe would read one byte past the caller-supplied
length, which the embedding surfaces as the Except error branch. -/
def readExponent (t : Tokenizer) : Except Tokenizer (Bool × Tokenizer) :=
  if endOfInput t ∨ ¬ isExponentIntroducer (inputByte t t.offset) then
    Except.ok (true, t)
  else
    let t1 := { setToken Token.Float t with offset := t.offset + 1 }
    if t1.offset < t1.input.length then
      let t2 :=
        if isPlusMinus (inputByte t1 t1.offset) then
          { t1 with offset := t1.offset + 1 }
        else t1
      Except.ok (readDigits 0 t2)
    else
      Except.error t1

/-- Tokenizer::readNumber (jsont.cc lines 166-181).  b is the byte
already consumed by next; tokenStart is its offset. -/
def readNumber (b : Char) (tokenStart : Nat) (t : Tokenizer) :
    Except Tokenizer Tokenizer :=
  let haveDigit := isDigitChar b
  if ¬ haveDigit ∧ ¬(b = '-') then
    Except.ok (setError ErrorCode.InvalidByte t)
  else
    let t0 := setToken Token.Integer t
    match readDigits (if haveDigit then 1 else 0) t0 with
    | (false, t1) => Except.ok (setError ErrorCode.MalformedNumberLiteral t1)
    | (true, t1) =>
      match readFraction t1 with
      | (false, t2) => Except.ok (setError ErrorCode.MalformedNumberLiteral t2)
      | (true, t2) =>
        match readExponent t2 with
        | Except.error t3 => Except.error t3
        | Except.ok (false, t3) =>
          Except.ok (setError ErrorCode.MalformedNumberLiteral t3)
        | Except.ok (true, t3) =>
          Except.ok
            { t3 with valueStart := tokenStart,
                      valueLen := t3.offset - tokenStart }

/-- Tokenizer::readAtom (jsont.cc lines 33-46).  atom is the remainder
of the keyword after its first byte, which next already consumed. -/
def readAtom (atom : List Char) (tok : Token) (t : Tokenizer) : Tokenizer :=
  if availableInput t < atom.length then
    setError ErrorCode.PrematureEndOfInput t
  else if ¬((t.input.drop t.offset).take atom.length = atom) then
    setError ErrorCode.InvalidByte t
  else if availableInput t > atom.length ∧
      isAlnumChar (inputByte t (t.offset + atom.length)) then
    setError ErrorCode.SyntaxError t
  else
    setToken tok { t with offset := t.offset + atom.length }

/-- Loop of Tokenizer::readString (jsont.cc lines 184-197), fuel-indexed
as in skipWSGo (an escape consumes two bytes, so the available input
over-approximates the iteration count, which is all the fuel-zero case
needs).  b carries the loop variable holding the last byte read;
Sum.inl is the early return with the error state set, Sum.inr is
normal loop exit. -/
def readStringGo : Nat → Char → Tokenizer → Tokenizer ⊕ (Char × Tokenizer)
  | 0, b, t => Sum.inr (b, t)
  | fuel + 1, b, t =>
    if endOfInput t then Sum.inr (b, t)
    else
      let b1 := inputByte t t.offset
      let t1 := { t with offset := t.offset + 1 }
      if b1 = '\\' then
        if endOfInput t1 then Sum.inl (setError ErrorCode.PrematureEndOfInput t1)
        else readStringGo fuel b1 { t1 with offset := t1.offset + 1 }
      else if b1 = '"' then Sum.inr (b1, t1)
      else if b1 = Char.ofNat 0 then Sum.inl (setError ErrorCode.InvalidByte t1)
      else readStringGo fuel b1 t1

/-- Tokenizer::readString (jsont.cc lines 183-225).  b is the opening
quote byte next already consumed (and the initial value of the loop
variable); tokenStart its offset.  After a closing quote the scanner
skips whitespace and inspects the next significant byte: a colon makes
the token a FieldName, a comma or closing bracket is put back and the
token is a String, a NUL is InvalidByte, anything else SyntaxError. -/
def readString (b : Char) (tokenStart : Nat) (t : Tokenizer) : Tokenizer :=
  match readStringGo (availableInput t) b t with
  | Sum.inl te => te
  | Sum.inr (bLast, t1) =>
    if ¬(bLast = '"') then setError ErrorCode.UnterminatedString t1
    else
      let t2 := { t1 with valueStart := tokenStart,
                          valueLen := t1.offset - tokenStart }
      let t3 := skipWS t2
      if ¬ endOfInput t3 then
        let b2 := inputByte t3 t3.offset
        let t4 := { t3 with offset := t3.offset + 1 }
        if b2 = ':' then setToken Token.FieldName t4
        else if b2 = ',' ∨ b2 = ']' ∨ b2 = Char.ofNat 125 then
          setToken Token.String { t4 with offset := t4.offset - 1 }
        else if b2 = Char.ofNat 0 then setError ErrorCode.InvalidByte t4
        else setError ErrorCode.SyntaxError t4
      else setToken Token.String t3

/-- Modelled from the spec: Tokenizer::readEndBracket (declared in the
missing jsont.hh; spec section 4.4): a closing bracket must not be
immediately preceded by a dangling comma, detected by inspecting the
last token emitted; otherwise it yields its bracket token.  next has
already consumed the bracket byte. -/
def readEndBracket (tok : Token) (t : Tokenizer) : Tokenizer :=
  if t.token = Token.Comma then setError ErrorCode.UnexpectedTrailingComma t
  else setToken tok t

/-- Tokenizer::next (jsont.cc lines 227-270), fuel-indexed.  The comma
case is Tokenizer::readComma, modelled from the spec (declared in the
missing jsont.hh; spec section 4.4): a comma is never legal as the
first significant byte of a container or immediately after another
comma (last token ObjectStart, ArrayStart or Comma — UnexpectedComma);
otherwise the scanner records the comma in the token state and scans
on for the next token, which is the one recursive call.  Each
recursive call happens strictly after a byte was consumed, so the
available input bounds the recursion depth and the wrapper passes it
as fuel; the fuel-zero fallback in the comma case is unreachable from
the wrapper (with fuel at least the available input, a comma byte was
in the buffer, so fuel was positive). -/
def nextGo (fuel : Nat) (t0 : Tokenizer) : Except Tokenizer Tokenizer :=
  let t := skipWS t0
  if endOfInput t then Except.ok (setToken Token.End t)
  else
    let tokenStart := t.offset
    let b := inputByte t t.offset
    let t1 := { t with offset := t.offset + 1 }
    if b = Char.ofNat 123 then Except.ok (setToken Token.ObjectStart t1)
    else if b = Char.ofNat 125 then Except.ok (readEndBracket Token.ObjectEnd t1)
    else if b = '[' then Except.ok (setToken Token.ArrayStart t1)
    else if b = ']' then Except.ok (readEndBracket Token.ArrayEnd t1)
    else if b = 'n' then Except.ok (readAtom ['u', 'l', 'l'] Token.Null t1)
    else if b = 't' then Except.ok (readAtom ['r', 'u', 'e'] Token.True t1)
    else if b = 'f' then Except.ok (readAtom ['a', 'l', 's', 'e'] Token.False t1)
    else if b = Char.ofNat 0 then Except.ok (setError ErrorCode.InvalidByte t1)
    else if b = '"' then Except.ok (readString b tokenStart t1)
    else if b = ',' then
      if t1.token = Token.ObjectStart ∨ t1.token = Token.ArrayStart ∨
          t1.token = Token.Comma then
        Except.ok (setError ErrorCode.UnexpectedComma t1)
      else
        match fuel with
        | 0 => Except.ok t1
        | fuel1 + 1 => nextGo fuel1 (setToken Token.Comma t1)
    else
      readNumber b tokenStart t1

/-- Tokenizer::next: advance by one token (the pull operation of the
scanner).  Except.ok is the token result (stored in the state);
Except.error is the state at the out-of-bounds probe of readExponent,
were it ever reached. -/
def next (t : Tokenizer) : Except Tokenizer Tokenizer :=
  nextGo (availableInput t) t

/-- The scanner state after an advance, out-of-bounds branch included. -/
def scanState : Except Tokenizer Tokenizer → Tokenizer
  | Except.ok t => t
  | Except.error t => t

/-! ## Models of the C library numeric conversions

Tokenizer::intValue and Tokenizer::floatValue (jsont.cc lines 79-109)
convert the current value slice with std::stoll / std::stod on a
bounded copy when the cursor sits at the end of the buffer, and with
strtoll / strtod directly on the buffer otherwise.  The library
functions are modelled from the C standard (C17 7.22.1.3 and 7.22.1.4,
"C" locale): each model returns the length of the subject sequence
consumed together with the converted value.  A real strtol/strtod also
examines the byte just past the subject sequence (the terminator that
stopped it), which matters for the buffer-boundary claims.  The
INF/INFINITY/NAN forms of strtod are not modelled: every conversion in
this development starts at a scanner number slice, whose first byte is
a decimal digit or a minus sign.  Integer results are unbounded: the
int64 clamping/throw on overflow is outside all claims, which restrict
themselves to representable values. -/

/-- C isspace in the C locale (strtoll/strtod leading-space skip). -/
def wsC (c : Char) : Bool :=
  c = ' ' ∨ c = '\t' ∨ c = '\n' ∨ c = Char.ofNat 11 ∨ c = Char.ofNat 12 ∨ c = '\r'

/-- Value of one decimal digit byte. -/
def digitVal (c : Char) : Nat := c.toNat - 48

/-- Value of a run of decimal digit bytes. -/
def digitsVal (ds : List Char) : Nat :=
  ds.foldl (fun a c => a * 10 + digitVal c) 0

/-- C isxdigit in the C locale. -/
def isHexDigitChar (c : Char) : Bool :=
  isDigitChar c ∨ ('a' ≤ c ∧ c ≤ 'f') ∨ ('A' ≤ c ∧ c ≤ 'F')

/-- Value of one hexadecimal digit byte. -/
def hexVal (c : Char) : Nat :=
  if isDigitChar c then c.toNat - 48
  else if 'a' ≤ c then c.toNat - 87
  else c.toNat - 55

/-- Value of a run of hexadecimal digit bytes. -/
def hexsVal (ds : List Char) : Nat :=
  ds.foldl (fun a c => a * 16 + hexVal c) 0

/-- Model of strtoll at base 10: optional white space, optional sign,
longest run of decimal digits.  Returns (consumed, value); an empty
digit run is "no conversion": nothing consumed, value 0. -/
def strtollRun (l : List Char) : Nat × Int :=
  let w := (l.takeWhile wsC).length
  let l1 := l.drop w
  match l1 with
  | '-' :: r =>
    let ds := r.takeWhile isDigitChar
    if ds.length = 0 then (0, 0)
    else (w + 1 + ds.length, -(digitsVal ds : Int))
  | '+' :: r =>
    let ds := r.takeWhile isDigitChar
    if ds.length = 0 then (0, 0)
    else (w + 1 + ds.length, (digitsVal ds : Int))
  | _ =>
    let ds := l1.takeWhile isDigitChar
    if ds.length = 0 then (0, 0)
    else (w + ds.length, (digitsVal ds : Int))

/-- Model of std::stoll on a copied, null-terminated string: same
subject sequence as strtoll; "no conversion" throws
std::invalid_argument, which inside the noexcept accessor terminates
the program — modelled as none. -/
def stollOpt (l : List Char) : Option Int :=
  if (strtollRun l).1 = 0 then none else some (strtollRun l).2

/-- Decimal mantissa of strtod: a nonempty digit sequence optionally
containing one decimal point.  Returns (consumed, numerator,
denominator) — the value is kept as an integer pair until strtodRun
builds the final rational, so that concrete conversions evaluate
inside the kernel — or none when the sequence holds no digit. -/
def decMantissa (l : List Char) : Option (Nat × Nat × Nat) :=
  let d1 := l.takeWhile isDigitChar
  let l1 := l.drop d1.length
  match l1 with
  | '.' :: r =>
    let d2 := r.takeWhile isDigitChar
    if d1.length = 0 ∧ d2.length = 0 then none
    else some (d1.length + 1 + d2.length,
      digitsVal d1 * 10 ^ d2.length + digitsVal d2, 10 ^ d2.length)
  | _ =>
    if d1.length = 0 then none
    else some (d1.length, digitsVal d1, 1)

/-- Hexadecimal mantissa of strtod (after the 0x prefix): a nonempty
hex digit sequence optionally containing one point, value as a
numerator / denominator pair as in decMantissa. -/
def hexMantissa (l : List Char) : Option (Nat × Nat × Nat) :=
  let d1 := l.takeWhile isHexDigitChar
  let l1 := l.drop d1.length
  match l1 with
  | '.' :: r =>
    let d2 := r.takeWhile isHexDigitChar
    if d1.length = 0 ∧ d2.length = 0 then none
    else some (d1.length + 1 + d2.length,
      hexsVal d1 * 16 ^ d2.length + hexsVal d2, 16 ^ d2.length)
  | _ =>
    if d1.length = 0 then none
    else some (d1.length, hexsVal d1, 1)

/-- Exponent part of strtod after its introducer byte: optional sign
then at least one decimal digit; (consumed-after-introducer, value),
(0, 0) when absent (the introducer is then not consumed either). -/
def expDigits (r : List Char) : Nat × Int :=
  match r with
  | '+' :: r2 =>
    let ds := r2.takeWhile isDigitChar
    if ds.length = 0 then (0, 0) else (1 + ds.length, (digitsVal ds : Int))
  | '-' :: r2 =>
    let ds := r2.takeWhile isDigitChar
    if ds.length = 0 then (0, 0) else (1 + ds.length, -(digitsVal ds : Int))
  | _ =>
    let ds := r.takeWhile isDigitChar
    if ds.length = 0 then (0, 0) else (ds.length, (digitsVal ds : Int))

/-- Optional exponent of strtod: introducer in intro, then sign and
digits; consumed only when at least one digit follows. -/
def expPart (intro : Char → Bool) (l : List Char) : Nat × Int :=
  match l with
  | c :: r =>
    if intro c then
      let (n, e) := expDigits r
      if n = 0 then (0, 0) else (1 + n, e)
    else (0, 0)
  | [] => (0, 0)

/-- Scaling of a numerator / denominator pair by an integer power of
the exponent base. -/
def scalePow (base : Nat) (e : Int) (m : Nat × Nat) : Nat × Nat :=
  if 0 ≤ e then (m.1 * base ^ e.toNat, m.2)
  else (m.1, m.2 * base ^ (-e).toNat)

/-- Decimal body of strtod (after white space and sign): (consumed,
numerator, denominator). -/
def decimalBody (l : List Char) : Nat × Nat × Nat :=
  match decMantissa l with
  | none => (0, 0, 1)
  | some (c, m) =>
    let (ce, e) := expPart (fun x => x = 'e' ∨ x = 'E') (l.drop c)
    (c + ce, scalePow 10 e m)

/-- Body of strtod after white space and sign: a 0x/0X prefix followed
by a hexadecimal mantissa selects the hexadecimal form with a binary
p-exponent, otherwise (including a bare "0x" with no hex digit, whose
longest valid subject is just the "0") the decimal form applies. -/
def strtodBody (l : List Char) : Nat × Nat × Nat :=
  match l with
  | '0' :: x :: r =>
    if x = 'x' ∨ x = 'X' then
      match hexMantissa r with
      | some (c, m) =>
        let (ce, e) := expPart (fun y => y = 'p' ∨ y = 'P') (r.drop c)
        (2 + c + ce, scalePow 2 e m)
      | none => decimalBody ('0' :: x :: r)
    else decimalBody ('0' :: x :: r)
  | _ => decimalBody l

/-- Model of strtod: white space, optional sign, body; (consumed,
value), with "no conversion" consuming nothing. -/
def strtodRun (l : List Char) : Nat × ℚ :=
  let w := (l.takeWhile wsC).length
  let l1 := l.drop w
  match l1 with
  | '-' :: r =>
    let (c, n, d) := strtodBody r
    if c = 0 then (0, 0) else (w + 1 + c, mkRat (-Int.ofNat n) d)
  | '+' :: r =>
    let (c, n, d) := strtodBody r
    if c = 0 then (0, 0) else (w + 1 + c, mkRat (Int.ofNat n) d)
  | _ =>
    let (c, n, d) := strtodBody l1
    if c = 0 then (0, 0) else (w + c, mkRat (Int.ofNat n) d)

/-- Model of std::stod on a copied, null-terminated string, as stollOpt
is to strtoll: none models the throw on "no conversion". -/
def stodOpt (l : List Char) : Option ℚ :=
  if (strtodRun l).1 = 0 then none else some (strtodRun l).2

/-- Tokenizer::intValue (jsont.cc lines 95-109): tokens without a value
convert as 1 for True and 0 otherwise; with the cursor at the end of
the buffer the slice is copied and converted with stoll (the copy
supplies the terminating byte a direct parse would lack); otherwise
strtoll parses in place from the slice start, free to run past the
slice end into the rest of the buffer. -/
def intValue (t : Tokenizer) : Option Int :=
  if ¬ hasValue t then some (if t.token = Token.True then 1 else 0)
  else if availableInput t = 0 then stollOpt (sliceOf t)
  else some (strtollRun (t.input.drop t.valueStart)).2

/-- Tokenizer::floatValue (jsont.cc lines 79-93), same shape as
intValue with stod/strtod. -/
def floatValue (t : Tokenizer) : Option ℚ :=
  if ¬ hasValue t then some (if t.token = Token.True then 1 else 0)
  else if availableInput t = 0 then stodOpt (sliceOf t)
  else some (strtodRun (t.input.drop t.valueStart)).2

/-- Index of the byte the in-place strtod examines last: the terminator
just past its subject sequence.  When this reaches the buffer length
the C call reads past the caller-supplied buffer. -/
def strtodProbeIndex (t : Tokenizer) : Nat :=
  t.valueStart + (strtodRun (t.input.drop t.valueStart)).1

/-- Index of the byte the in-place strtoll examines last. -/
def strtollProbeIndex (t : Tokenizer) : Nat :=
  t.valueStart + (strtollRun (t.input.drop t.valueStart)).1

/-- One advance, projected to the state (for concrete scans). -/
def stepTok (t : Tokenizer) : Tokenizer :=
  scanState (next t)

/-- Token-by-token scan: the list of (token, value slice) pairs of the
first n advances (the slice shown only for value-bearing tokens). -/
def runTokens : Nat → Tokenizer → List (Token × List Char)
  | 0, _ => []
  | n + 1, t =>
    match next t with
    | Except.error _ => [(Token.Error, [])]
    | Except.ok t1 =>
      (t1.token, if hasValue t1 then sliceOf t1 else []) :: runTokens n t1

/-- Length of the run of bytes satisfying p starting at index i of l. -/
def runLen (p : Char → Bool) (l : List Char) (i : Nat) : Nat :=
  ((l.drop i).takeWhile p).length

/-- The digit run the readDigits loop accepts from index i. -/
def digitRun (l : List Char) (i : Nat) : Nat :=
  runLen isDigitChar l i

/-- The whitespace run the skipWS loop consumes from index i. -/
def wsRun (l : List Char) (i : Nat) : Nat :=
  runLen isJsonWS l i

/-- Cursor position at which readDigits comes to rest when started at
index i with the cursor in bounds: past the digit run, except that a
terminating non-digit byte sitting at the last buffer position is
consumed without the rewind (the readDigits edge case). -/
def digitsStop (l : List Char) (i : Nat) : Nat :=
  if l.length ≤ i + digitRun l i + 1 then l.length else i + digitRun l i

/-- The buffer configuration under which the two floatValue branches
can part ways: the value slice is a bare zero (with or without sign)
and the byte at the cursor is x or X, so the in-place strtod may read
a C hexadecimal floating constant spanning past the slice while the
bounded copy sees only the zero. -/
def hexPickupRisk (t : Tokenizer) : Bool :=
  (sliceOf t = ['0'] ∨ sliceOf t = ['-', '0']) ∧
  (inputByte t t.offset = 'x' ∨ inputByte t t.offset = 'X')

/-- Statement pattern of the atom-matching claim for one keyword: c is
the dispatch byte, rest the remainder of the keyword, tok the token on
success.  Quantified over any state t whose next significant byte
(after whitespace, at the state u) is c: too little input yields
PrematureEndOfInput; a byte mismatch yields InvalidByte; a full match
followed by an alphanumeric byte yields SyntaxError; otherwise the
token is produced and the cursor advances by exactly the keyword
length. -/
def atomClaim (c : Char) (rest : List Char) (tok : Token) : Prop :=
  ∀ t u : Tokenizer, skipWS t = u → u.offset < u.input.length →
    inputByte u u.offset = c →
    (u.input.length - u.offset < rest.length + 1 →
      ∃ t2, next t = Except.ok t2 ∧ t2.token = Token.Error ∧
        t2.error = ErrorCode.PrematureEndOfInput) ∧
    (rest.length + 1 ≤ u.input.length - u.offset →
      ¬ ((u.input.drop u.offset).take (rest.length + 1) = c :: rest) →
      ∃ t2, next t = Except.ok t2 ∧ t2.token = Token.Error ∧
        t2.error = ErrorCode.InvalidByte) ∧
    ((u.input.drop u.offset).take (rest.length + 1) = c :: rest →
      rest.length + 1 < u.input.length - u.offset →
      isAlnumChar (inputByte u (u.offset + (rest.length + 1))) = true →
      ∃ t2, next t = Except.ok t2 ∧ t2.token = Token.Error ∧
        t2.error = ErrorCode.SyntaxError) ∧
    ((u.input.drop u.offset).take (rest.length + 1) = c :: rest →
      (u.input.length - u.offset = rest.length + 1 ∨
        isAlnumChar (inputByte u (u.offset + (rest.length + 1))) = false) →
      ∃ t2, next t = Except.ok t2 ∧ t2.token = tok ∧
        t2.offset = u.offset + (rest.length + 1))

/-! ## Generic list facts -/

theorem length_takeWhile_le_len {p : Char → Bool} :
    ∀ l : List Char, (l.takeWhile p).length ≤ l.length := by
  intro l
  induction l with
  | nil => simp
  | cons a l ih =>
    by_cases h : p a
    · simpa [List.takeWhile_cons, h] using ih
    · simp [List.takeWhile_cons, h]

theorem takeWhile_boundary {p : Char → Bool} :
    ∀ (l : List Char) (h : (l.takeWhile p).length < l.length),
      p (l[(l.takeWhile p).length]) = false := by
  intro l
  induction l with
  | nil => intro h; simp at h
  | cons a l ih =>
    intro h
    by_cases hp : p a
    · have hlt : (l.takeWhile p).length < l.length := by
        simpa [List.takeWhile_cons, hp] using h
      have := ih hlt
      simpa [List.takeWhile_cons, hp] using this
    · simpa [List.takeWhile_cons, hp] using hp

/-! ## Facts about byte runs -/

theorem runLen_of_ge {p : Char → Bool} {l : List Char} {i : Nat}
    (h : l.length ≤ i) : runLen p l i = 0 := by
  simp [runLen, List.drop_eq_nil_of_le h]

theorem runLen_add_le {p : Char → Bool} {l : List Char} {i : Nat}
    (h : i ≤ l.length) : i + runLen p l i ≤ l.length := by
  have h1 : (((l.drop i).takeWhile p).length : Nat) ≤ (l.drop i).length :=
    length_takeWhile_le_len (l.drop i)
  simp only [List.length_drop] at h1
  simp only [runLen]
  omega

theorem runLen_pos {p : Char → Bool} {l : List Char} {i : Nat} (h : i < l.length)
    (hp : p (l[i]) = true) :
    runLen p l i = runLen p l (i + 1) + 1 := by
  have hdrop : l.drop i = l[i] :: l.drop (i + 1) := List.drop_eq_getElem_cons h
  simp only [runLen, hdrop, List.takeWhile_cons_of_pos hp, List.length_cons]

theorem runLen_neg {p : Char → Bool} {l : List Char} {i : Nat} (h : i < l.length)
    (hp : p (l[i]) = false) :
    runLen p l i = 0 := by
  have hdrop : l.drop i = l[i] :: l.drop (i + 1) := List.drop_eq_getElem_cons h
  simp only [runLen, hdrop,
    List.takeWhile_cons_of_neg (show ¬ p (l[i]) = true by simp [hp]),
    List.length_nil]

theorem runLen_boundary {p : Char → Bool} {l : List Char} {i : Nat}
    (h : i + runLen p l i < l.length) :
    p (l[i + runLen p l i]) = false := by
  by_cases hi : i < l.length
  · have hlt : (((l.drop i).takeWhile p).length) < (l.drop i).length := by
      simp only [List.length_drop]
      simp only [runLen] at h
      omega
    have hb := takeWhile_boundary (l.drop i) hlt
    have hget : (l.drop i)[((l.drop i).takeWhile p).length] = l[i + runLen p l i] := by
      simp [runLen, List.getElem_drop]
    rw [hget] at hb
    exact hb
  · have h0 := runLen_of_ge (p := p) (l := l) (i := i) (by omega)
    omega

/-! ## Characterisation of skipWS -/

theorem skipWSGo_spec :
    ∀ (fuel : Nat) (t : Tokenizer), availableInput t = fuel →
      skipWSGo fuel t = { t with offset := t.offset + wsRun t.input t.offset } := by
  intro fuel
  induction fuel with
  | zero =>
    intro t hfuel
    have hge : t.input.length ≤ t.offset := by
      simp [availableInput] at hfuel
      omega
    have hrun : wsRun t.input t.offset = 0 := runLen_of_ge hge
    simp [skipWSGo, hrun]
  | succ fuel ih =>
    intro t hfuel
    obtain ⟨inp, off, tok, err, vs, vl⟩ := t
    simp only [availableInput] at hfuel
    have hlt : off < inp.length := by omega
    have hend : ¬ (endOfInput ⟨inp, off, tok, err, vs, vl⟩ = true) := by
      simp [endOfInput, availableInput]
      omega
    have hbyte : inputByte ⟨inp, off, tok, err, vs, vl⟩ off = inp[off] := by
      simp [inputByte, List.getD_eq_getElem?_getD, List.getElem?_eq_getElem hlt]
    rw [skipWSGo]
    by_cases hws : isJsonWS (inp[off]) = true
    · have hrun : wsRun inp off = wsRun inp (off + 1) + 1 := runLen_pos hlt hws
      have hih := ih ⟨inp, off + 1, tok, err, vs, vl⟩
        (by simp [availableInput]; omega)
      simp only [hend, if_false, hbyte, hws, if_true, ite_false, ite_true]
      simp only at hih
      rw [hih]
      have harith : off + 1 + wsRun inp (off + 1) = off + wsRun inp off := by omega
      rw [harith]
      simp
    · have hrun : wsRun inp off = 0 :=
        runLen_neg hlt (by simp only [Bool.not_eq_true] at hws; exact hws)
      simp only [hend, if_false, hbyte, hws, ite_false, ite_true, Bool.false_eq_true]
      simp [hrun]

theorem skipWS_spec (t : Tokenizer) :
    skipWS t = { t with offset := t.offset + wsRun t.input t.offset } :=
  skipWSGo_spec (availableInput t) t rfl

theorem skipWS_le_len {t : Tokenizer} (h : t.offset ≤ t.input.length) :
    (skipWS t).offset ≤ t.input.length := by
  rw [skipWS_spec]
  by_cases hi : t.offset < t.input.length
  · have := runLen_add_le (p := isJsonWS) (l := t.input) (i := t.offset) (by omega)
    simp only [wsRun]
    omega
  · have h0 : wsRun t.input t.offset = 0 := runLen_of_ge (by omega)
    simp [h0]
    omega

/-! ## Characterisation of readDigits -/

theorem readDigitsGo_spec :
    ∀ (fuel : Nat) (n : Nat) (t : Tokenizer),
      availableInput t = fuel → t.offset ≤ t.input.length →
      readDigitsGo fuel n t =
        (decide (0 < n + digitRun t.input t.offset),
          { t with offset := digitsStop t.input t.offset }) := by
  intro fuel
  induction fuel with
  | zero =>
    intro n t hfuel hle
    have hoff : t.offset = t.input.length := by
      simp [availableInput] at hfuel
      omega
    have hrun : digitRun t.input t.offset = 0 := runLen_of_ge (by omega)
    have hstop : digitsStop t.input t.offset = t.offset := by
      simp only [digitsStop, hrun]
      rw [if_pos (by omega)]
      omega
    have hend : endOfInput t = true := by
      simp [endOfInput, availableInput]
      omega
    simp [readDigitsGo, readDigitsEnd, hend, hrun, hstop]
  | succ fuel ih =>
    intro n t hfuel hle
    obtain ⟨inp, off, tok, err, vs, vl⟩ := t
    simp only [availableInput] at hfuel
    simp only at hle
    have hlt : off < inp.length := by omega
    have hend : ¬ (endOfInput ⟨inp, off, tok, err, vs, vl⟩ = true) := by
      simp [endOfInput, availableInput]
      omega
    have hbyte : inputByte ⟨inp, off, tok, err, vs, vl⟩ off = inp[off] := by
      simp [inputByte, List.getD_eq_getElem?_getD, List.getElem?_eq_getElem hlt]
    rw [readDigitsGo]
    by_cases hd : isDigitChar (inp[off]) = true
    · have hrun : digitRun inp off = digitRun inp (off + 1) + 1 := runLen_pos hlt hd
      have hih := ih (n + 1) ⟨inp, off + 1, tok, err, vs, vl⟩
        (by simp [availableInput]; omega) (by simp; omega)
      simp only [hend, if_false, hbyte, hd, if_true, ite_false, ite_true]
      simp only at hih
      rw [hih]
      have hstop : digitsStop inp (off + 1) = digitsStop inp off := by
        simp only [digitsStop, hrun]
        have h1 : off + 1 + digitRun inp (off + 1) + 1 =
            off + (digitRun inp (off + 1) + 1) + 1 := by omega
        have h2 : off + 1 + digitRun inp (off + 1) =
            off + (digitRun inp (off + 1) + 1) := by omega
        rw [h1, h2]
      rw [hstop]
      have harith : n + 1 + digitRun inp (off + 1) = n + digitRun inp off := by omega
      rw [harith]
      simp
    · have hrun : digitRun inp off = 0 :=
        runLen_neg hlt (by simp only [Bool.not_eq_true] at hd; exact hd)
      simp only [hend, if_false, hbyte, hd, if_true, ite_false, ite_true,
        Bool.false_eq_true]
      by_cases hlast : off + 1 = inp.length
      · have hstop : digitsStop inp off = off + 1 := by
          simp only [digitsStop, hrun]
          rw [if_pos (by omega)]
          omega
        have hend1 : endOfInput ⟨inp, off + 1, tok, err, vs, vl⟩ = true := by
          simp [endOfInput, availableInput]
          omega
        simp [readDigitsEnd, hend1, hstop, hrun]
      · have hstop : digitsStop inp off = off := by
          simp only [digitsStop, hrun]
          rw [if_neg (by omega)]
          omega
        have hend1 : ¬ (endOfInput ⟨inp, off + 1, tok, err, vs, vl⟩ = true) := by
          simp [endOfInput, availableInput]
          omega
        simp [readDigitsEnd, hend1, hstop, hrun]

theorem readDigits_spec (n : Nat) (t : Tokenizer) (hle : t.offset ≤ t.input.length) :
    readDigits n t =
      (decide (0 < n + digitRun t.input t.offset),
        { t with offset := digitsStop t.input t.offset }) :=
  readDigitsGo_spec (availableInput t) n t rfl hle

/-- The rest position of readDigits is in bounds, does not move the
cursor backwards, and is either the buffer end or leaves at least two
bytes of room (the rewind only happens when the terminator is not the
last byte), which is what shields the readExponent sign probe. -/
theorem digitsStop_facts {l : List Char} {i : Nat} (h : i ≤ l.length) :
    i ≤ digitsStop l i ∧ digitsStop l i ≤ l.length ∧
      (digitsStop l i = l.length ∨ digitsStop l i + 1 < l.length) := by
  have hrun : i + digitRun l i ≤ l.length := runLen_add_le h
  by_cases hc : l.length ≤ i + digitRun l i + 1
  · simp only [digitsStop]
    rw [if_pos hc]
    omega
  · simp only [digitsStop]
    rw [if_neg hc]
    omega

/-! ## Helper facts about the state accessors -/

theorem endOfInput_iff {t : Tokenizer} : endOfInput t = true ↔ t.input.length ≤ t.offset := by
  simp [endOfInput, availableInput]
  omega

theorem endOfInput_not_iff {t : Tokenizer} :
    ¬ (endOfInput t = true) ↔ t.offset < t.input.length := by
  rw [endOfInput_iff]
  omega

theorem inputByte_eq {t : Tokenizer} {i : Nat} (h : i < t.input.length) :
    inputByte t i = t.input[i] := by
  simp [inputByte, List.getD_eq_getElem?_getD, List.getElem?_eq_getElem h]

/-! ## Bounds and preservation facts for the number pipeline -/

theorem readFraction_facts (t : Tokenizer) (hle : t.offset ≤ t.input.length)
    (hshield : t.offset = t.input.length ∨ t.offset + 1 < t.input.length) :
    ∃ g t2, readFraction t = (g, t2) ∧
      t2.input = t.input ∧ t.offset ≤ t2.offset ∧ t2.offset ≤ t.input.length ∧
      (t2.offset = t.input.length ∨ t2.offset + 1 < t.input.length) ∧
      t2.valueStart = t.valueStart ∧ t2.valueLen = t.valueLen ∧
      t2.error = t.error ∧
      (t2.token = t.token ∨ t2.token = Token.Float) := by
  obtain ⟨inp, off, tok, err, vs, vl⟩ := t
  simp only at hle hshield
  by_cases hc : endOfInput ⟨inp, off, tok, err, vs, vl⟩ = true ∨
      ¬ (inputByte ⟨inp, off, tok, err, vs, vl⟩ off = '.')
  · refine ⟨true, ⟨inp, off, tok, err, vs, vl⟩, ?_⟩
    rw [readFraction, if_pos hc]
    simp
    omega
  · push_neg at hc
    obtain ⟨hend, hdot⟩ := hc
    have hlt : off < inp.length := endOfInput_not_iff.mp hend
    have hlt1 : off + 1 < inp.length := by
      rcases hshield with h | h
      · omega
      · exact h
    have hrd := readDigits_spec 0
      ⟨inp, off + 1, Token.Float, err, vs, vl⟩ (by simp; omega)
    have hfacts := digitsStop_facts (l := inp) (i := off + 1) (by omega)
    simp only at hrd hfacts
    refine ⟨decide (0 < digitRun inp (off + 1)),
      ⟨inp, digitsStop inp (off + 1), Token.Float, err, vs, vl⟩, ?_, rfl,
      ?_, ?_, ?_, rfl, rfl, rfl, Or.inr rfl⟩
    · rw [readFraction, if_neg (by push_neg; exact ⟨hend, hdot⟩)]
      simp only [setToken]
      simpa using hrd
    · show off ≤ digitsStop inp (off + 1)
      omega
    · show digitsStop inp (off + 1) ≤ inp.length
      omega
    · show digitsStop inp (off + 1) = inp.length ∨
        digitsStop inp (off + 1) + 1 < inp.length
      omega

theorem readExponent_facts (t : Tokenizer) (hle : t.offset ≤ t.input.length)
    (hshield : t.offset = t.input.length ∨ t.offset + 1 < t.input.length) :
    ∃ g t2, readExponent t = Except.ok (g, t2) ∧
      t2.input = t.input ∧ t.offset ≤ t2.offset ∧ t2.offset ≤ t.input.length ∧
      t2.valueStart = t.valueStart ∧ t2.valueLen = t.valueLen ∧
      t2.error = t.error ∧
      (t2.token = t.token ∨ t2.token = Token.Float) := by
  obtain ⟨inp, off, tok, err, vs, vl⟩ := t
  simp only at hle hshield
  by_cases hc : endOfInput ⟨inp, off, tok, err, vs, vl⟩ = true ∨
      ¬ (isExponentIntroducer (inputByte ⟨inp, off, tok, err, vs, vl⟩ off) = true)
  · refine ⟨true, ⟨inp, off, tok, err, vs, vl⟩, ?_⟩
    rw [readExponent, if_pos hc]
    simp
    omega
  · push_neg at hc
    obtain ⟨hend, hexp⟩ := hc
    have hlt : off < inp.length := endOfInput_not_iff.mp hend
    have hlt1 : off + 1 < inp.length := by
      rcases hshield with h | h
      · omega
      · exact h
    rw [readExponent, if_neg (by push_neg; exact ⟨hend, hexp⟩)]
    simp only [setToken]
    rw [if_pos (show (off + 1 : Nat) < inp.length from hlt1)]
    by_cases hpm : isPlusMinus
        (inputByte ⟨inp, off + 1, Token.Float, err, vs, vl⟩ (off + 1)) = true
    · rw [if_pos hpm]
      have hrd := readDigits_spec 0
        ⟨inp, off + 2, Token.Float, err, vs, vl⟩ (by simp; omega)
      have hfacts := digitsStop_facts (l := inp) (i := off + 2) (by omega)
      simp only at hrd hfacts
      refine ⟨decide (0 < digitRun inp (off + 2)),
        ⟨inp, digitsStop inp (off + 2), Token.Float, err, vs, vl⟩, ?_, rfl,
        ?_, ?_, rfl, rfl, rfl, Or.inr rfl⟩
      · show Except.ok (readDigits 0 ⟨inp, off + 2, Token.Float, err, vs, vl⟩) = _
        rw [hrd]
        simp
      · show off ≤ digitsStop inp (off + 2)
        omega
      · show digitsStop inp (off + 2) ≤ inp.length
        omega
    · rw [if_neg hpm]
      have hrd := readDigits_spec 0
        ⟨inp, off + 1, Token.Float, err, vs, vl⟩ (by simp; omega)
      have hfacts := digitsStop_facts (l := inp) (i := off + 1) (by omega)
      simp only at hrd hfacts
      refine ⟨decide (0 < digitRun inp (off + 1)),
        ⟨inp, digitsStop inp (off + 1), Token.Float, err, vs, vl⟩, ?_, rfl,
        ?_, ?_, rfl, rfl, rfl, Or.inr rfl⟩
      · show Except.ok (readDigits 0 ⟨inp, off + 1, Token.Float, err, vs, vl⟩) = _
        rw [hrd]
        simp
      · show off ≤ digitsStop inp (off + 1)
        omega
      · show digitsStop inp (off + 1) ≤ inp.length
        omega

theorem readNumber_facts (b : Char) (ts : Nat) (t : Tokenizer)
    (hts : ts ≤ t.offset) (hle : t.offset ≤ t.input.length) :
    ∃ t2, readNumber b ts t = Except.ok t2 ∧
      t2.input = t.input ∧ t.offset ≤ t2.offset ∧ t2.offset ≤ t.input.length ∧
      ((t2.token = Token.Error ∧ t2.valueStart = t.valueStart ∧
          t2.valueLen = t.valueLen) ∨
        ((t2.token = Token.Integer ∨ t2.token = Token.Float) ∧
          t2.valueStart = ts ∧ t2.valueStart + t2.valueLen = t2.offset)) := by
  by_cases hb : ¬ (isDigitChar b = true) ∧ ¬ (b = '-')
  · refine ⟨setError ErrorCode.InvalidByte t, ?_⟩
    rw [readNumber]
    simp only []
    rw [if_pos hb]
    simp [setError]
    omega
  · obtain ⟨inp, off, tok, err, vs, vl⟩ := t
    simp only at hts hle
    rw [readNumber]
    simp only []
    rw [if_neg hb]
    have hrd := readDigits_spec (if isDigitChar b = true then 1 else 0)
      (setToken Token.Integer ⟨inp, off, tok, err, vs, vl⟩)
      (by simp [setToken]; omega)
    rw [hrd]
    simp only [setToken]
    have hfacts := digitsStop_facts (l := inp) (i := off) (by omega)
    simp only at hfacts
    by_cases hg1 : 0 < (if isDigitChar b = true then 1 else 0) + digitRun inp off
    · rw [decide_eq_true hg1]
      simp only []
      have hfr := readFraction_facts
        ⟨inp, digitsStop inp off, Token.Integer, err, vs, vl⟩
        (by simp; omega) (by simp only; omega)
      obtain ⟨g2, t2, heq2, hi2, hm2, hl2, hs2, hvs2, hvl2, he2, htok2⟩ := hfr
      simp only at hi2 hm2 hl2 hs2 hvs2 hvl2 he2 htok2
      rw [heq2]
      by_cases hg2 : g2 = true
      · subst hg2
        simp only []
        have hex := readExponent_facts t2 (by rw [hi2]; omega)
          (by rw [hi2]; omega)
        obtain ⟨g3, t3, heq3, hi3, hm3, hl3, hvs3, hvl3, he3, htok3⟩ := hex
        rw [hi2] at hi3 hl3
        rw [heq3]
        by_cases hg3 : g3 = true
        · subst hg3
          simp only []
          refine ⟨{ t3 with valueStart := ts, valueLen := t3.offset - ts }, rfl,
            by simp [hi3], by simp; omega, by simp; omega, Or.inr ⟨?_, by simp, by simp; omega⟩⟩
          have htok : t3.token = Token.Integer ∨ t3.token = Token.Float := by
            rcases htok3 with h | h
            · rw [h]
              rcases htok2 with h2 | h2
              · rw [h2]
                exact Or.inl rfl
              · rw [h2]
                exact Or.inr rfl
            · rw [h]
              exact Or.inr rfl
          simpa using htok
        · have hg3f : g3 = false := by
            simpa using hg3
          subst hg3f
          simp only []
          refine ⟨setError ErrorCode.MalformedNumberLiteral t3, rfl, ?_, ?_, ?_, Or.inl ?_⟩
          · simp [setError, hi3]
          · simp [setError]
            omega
          · simp [setError]
            omega
          · simp [setError, hvs3, hvl3, hvs2, hvl2]
      · have hg2f : g2 = false := by
          simpa using hg2
        subst hg2f
        simp only []
        refine ⟨setError ErrorCode.MalformedNumberLiteral t2, rfl, ?_, ?_, ?_, Or.inl ?_⟩
        · simp [setError, hi2]
        · simp [setError]
          omega
        · simp [setError]
          omega
        · simp [setError, hvs2, hvl2]
    · rw [decide_eq_false (by omega)]
      simp only []
      refine ⟨setError ErrorCode.MalformedNumberLiteral
        ⟨inp, digitsStop inp off, Token.Integer, err, vs, vl⟩, rfl, ?_, ?_, ?_, Or.inl ?_⟩
      · simp [setError]
      · simp [setError]
        omega
      · simp [setError]
        omega
      · simp [setError]

/-! ## Bounds and preservation facts for atoms, strings and brackets -/

theorem readAtom_facts (atom : List Char) (tok : Token) (t : Tokenizer)
    (hle : t.offset ≤ t.input.length) :
    (readAtom atom tok t).input = t.input ∧
    t.offset ≤ (readAtom atom tok t).offset ∧
    (readAtom atom tok t).offset ≤ t.input.length ∧
    (readAtom atom tok t).valueStart = t.valueStart ∧
    (readAtom atom tok t).valueLen = t.valueLen ∧
    ((readAtom atom tok t).token = tok ∨ (readAtom atom tok t).token = Token.Error) := by
  rw [readAtom]
  split_ifs with h1 h2 h3
  all_goals first
    | exact ⟨rfl, Nat.le_refl _, hle, rfl, rfl, Or.inr rfl⟩
    | · refine ⟨rfl, Nat.le_add_right _ _, ?_, rfl, rfl, Or.inl rfl⟩
        show t.offset + atom.length ≤ t.input.length
        simp only [availableInput, not_lt] at h1
        omega

theorem readEndBracket_facts (tok : Token) (t : Tokenizer) :
    (readEndBracket tok t).input = t.input ∧
    (readEndBracket tok t).offset = t.offset ∧
    (readEndBracket tok t).valueStart = t.valueStart ∧
    (readEndBracket tok t).valueLen = t.valueLen ∧
    ((readEndBracket tok t).token = tok ∨ (readEndBracket tok t).token = Token.Error) := by
  rw [readEndBracket]
  split_ifs with h1
  · simp [setError]
  · simp [setToken]

theorem readStringGo_facts :
    ∀ (fuel : Nat) (b : Char) (t : Tokenizer),
      t.offset ≤ t.input.length → availableInput t ≤ fuel →
      (∀ te, readStringGo fuel b t = Sum.inl te →
        te.input = t.input ∧ t.offset ≤ te.offset ∧ te.offset ≤ t.input.length ∧
        te.valueStart = t.valueStart ∧ te.valueLen = t.valueLen ∧
        te.token = Token.Error) ∧
      (∀ b2 t2, readStringGo fuel b t = Sum.inr (b2, t2) →
        t2.input = t.input ∧ t.offset ≤ t2.offset ∧ t2.offset ≤ t.input.length ∧
        t2.valueStart = t.valueStart ∧ t2.valueLen = t.valueLen ∧
        t2.token = t.token ∧ t2.error = t.error) := by
  intro fuel
  induction fuel with
  | zero =>
    intro b t hle hfuel
    constructor
    · intro te hte
      simp [readStringGo] at hte
    · intro b2 t2 ht2
      simp [readStringGo] at ht2
      obtain ⟨h1, h2⟩ := ht2
      subst h2
      simp
      omega
  | succ fuel ih =>
    intro b t hle hfuel
    obtain ⟨inp, off, tok, err, vs, vl⟩ := t
    simp only [availableInput] at hfuel
    simp only at hle
    rw [readStringGo]
    by_cases hend : endOfInput ⟨inp, off, tok, err, vs, vl⟩ = true
    · rw [if_pos hend]
      constructor
      · intro te hte
        simp at hte
      · intro b2 t2 ht2
        simp at ht2
        obtain ⟨h1, h2⟩ := ht2
        subst h2
        simp
        omega
    · rw [if_neg hend]
      have hlt : off < inp.length := by
        have := endOfInput_not_iff.mp hend
        simpa using this
      simp only []
      by_cases hbs : inputByte ⟨inp, off, tok, err, vs, vl⟩ off = '\\'
      · rw [if_pos hbs]
        by_cases hend1 : endOfInput ⟨inp, off + 1, tok, err, vs, vl⟩ = true
        · rw [if_pos hend1]
          constructor
          · intro te hte
            simp at hte
            subst hte
            have : off + 1 = inp.length := by
              have := endOfInput_iff.mp hend1
              simp at this
              omega
            simp [setError]
            omega
          · intro b2 t2 ht2
            simp at ht2
        · rw [if_neg hend1]
          have hlt1 : off + 1 < inp.length := by
            have := endOfInput_not_iff.mp hend1
            simpa using this
          have hih := ih (inputByte ⟨inp, off, tok, err, vs, vl⟩ off)
            ⟨inp, off + 1 + 1, tok, err, vs, vl⟩ (by simp; omega)
            (by simp [availableInput]; omega)
          constructor
          · intro te hte
            have h1 := hih.1 te hte
            simp only at h1
            refine ⟨h1.1, by omega, by omega, h1.2.2.2.1, h1.2.2.2.2.1, h1.2.2.2.2.2⟩
          · intro b2 t2 ht2
            have h1 := hih.2 b2 t2 ht2
            simp only at h1
            refine ⟨h1.1, by omega, by omega, h1.2.2.2.1, h1.2.2.2.2.1,
              h1.2.2.2.2.2.1, h1.2.2.2.2.2.2⟩
      · rw [if_neg hbs]
        by_cases hq : inputByte ⟨inp, off, tok, err, vs, vl⟩ off = '"'
        · rw [if_pos hq]
          constructor
          · intro te hte
            simp at hte
          · intro b2 t2 ht2
            simp at ht2
            obtain ⟨h1, h2⟩ := ht2
            subst h2
            simp
            omega
        · rw [if_neg hq]
          by_cases hz : inputByte ⟨inp, off, tok, err, vs, vl⟩ off = Char.ofNat 0
          · rw [if_pos hz]
            constructor
            · intro te hte
              simp at hte
              subst hte
              simp [setError]
              omega
            · intro b2 t2 ht2
              simp at ht2
          · rw [if_neg hz]
            have hih := ih (inputByte ⟨inp, off, tok, err, vs, vl⟩ off)
              ⟨inp, off + 1, tok, err, vs, vl⟩ (by simp; omega)
              (by simp [availableInput]; omega)
            constructor
            · intro te hte
              have h1 := hih.1 te hte
              simp only at h1
              refine ⟨h1.1, by omega, by omega, h1.2.2.2.1, h1.2.2.2.2.1, h1.2.2.2.2.2⟩
            · intro b2 t2 ht2
              have h1 := hih.2 b2 t2 ht2
              simp only at h1
              refine ⟨h1.1, by omega, by omega, h1.2.2.2.1, h1.2.2.2.2.1,
                h1.2.2.2.2.2.1, h1.2.2.2.2.2.2⟩

theorem readString_facts (b : Char) (ts : Nat) (t : Tokenizer)
    (hts : ts ≤ t.offset) (hle : t.offset ≤ t.input.length) :
    (readString b ts t).input = t.input ∧
    t.offset ≤ (readString b ts t).offset ∧
    (readString b ts t).offset ≤ t.input.length ∧
    ((readString b ts t).valueStart = t.valueStart ∧
        (readString b ts t).valueLen = t.valueLen ∨
      (readString b ts t).valueStart + (readString b ts t).valueLen ≤
        (readString b ts t).offset) ∧
    ((readString b ts t).token = Token.Error ∨
      (readString b ts t).token = Token.FieldName ∨
      (readString b ts t).token = Token.String) := by
  have hgo := readStringGo_facts (availableInput t) b t hle (Nat.le_refl _)
  rw [readString]
  cases hm : readStringGo (availableInput t) b t with
  | inl te =>
    have h1 := hgo.1 te hm
    exact ⟨h1.1, h1.2.1, h1.2.2.1, Or.inl ⟨h1.2.2.2.1, h1.2.2.2.2.1⟩,
      Or.inl h1.2.2.2.2.2⟩
  | inr p =>
    obtain ⟨bLast, t1⟩ := p
    obtain ⟨hi1, hm1, hl1, hvs1, hvl1, htok1, herr1⟩ := hgo.2 bLast t1 hm
    simp only []
    by_cases hq : ¬ (bLast = '"')
    · rw [if_pos hq]
      exact ⟨hi1, hm1, hl1, Or.inl ⟨hvs1, hvl1⟩, Or.inl rfl⟩
    · rw [if_neg hq]
      rw [skipWS_spec]
      have hlen : t1.input.length = t.input.length := by rw [hi1]
      have hW : t1.offset + wsRun t1.input t1.offset ≤ t1.input.length := by
        rcases Nat.lt_or_ge t1.offset t1.input.length with h | h
        · exact runLen_add_le (Nat.le_of_lt h)
        · have h0 : wsRun t1.input t1.offset = 0 := runLen_of_ge h
          omega
      by_cases hend3 : endOfInput
          (⟨t1.input, t1.offset + wsRun t1.input t1.offset, t1.token, t1.error,
            ts, t1.offset - ts⟩ : Tokenizer) = true
      · rw [if_neg (by simpa using hend3)]
        refine ⟨hi1, by show t.offset ≤ t1.offset + wsRun t1.input t1.offset; omega,
          by show t1.offset + wsRun t1.input t1.offset ≤ t.input.length; omega,
          Or.inr ?_, Or.inr (Or.inr rfl)⟩
        show ts + (t1.offset - ts) ≤ t1.offset + wsRun t1.input t1.offset
        omega
      · rw [if_pos (by simpa using hend3)]
        have hlt3 : t1.offset + wsRun t1.input t1.offset < t1.input.length := by
          have := endOfInput_not_iff.mp hend3
          simpa using this
        split_ifs with hc1 hc2 hc3
        · refine ⟨hi1,
            by show t.offset ≤ t1.offset + wsRun t1.input t1.offset + 1; omega,
            by show t1.offset + wsRun t1.input t1.offset + 1 ≤ t.input.length
               rw [← hi1]
               omega,
            Or.inr ?_, Or.inr (Or.inl rfl)⟩
          show ts + (t1.offset - ts) ≤ t1.offset + wsRun t1.input t1.offset + 1
          omega
        · refine ⟨hi1,
            by show t.offset ≤ t1.offset + wsRun t1.input t1.offset + 1 - 1; omega,
            by show t1.offset + wsRun t1.input t1.offset + 1 - 1 ≤ t.input.length
               rw [← hi1]
               omega,
            Or.inr ?_, Or.inr (Or.inr rfl)⟩
          show ts + (t1.offset - ts) ≤ t1.offset + wsRun t1.input t1.offset + 1 - 1
          omega
        · refine ⟨hi1,
            by show t.offset ≤ t1.offset + wsRun t1.input t1.offset + 1; omega,
            by show t1.offset + wsRun t1.input t1.offset + 1 ≤ t.input.length
               rw [← hi1]
               omega,
            Or.inr ?_, Or.inl rfl⟩
          show ts + (t1.offset - ts) ≤ t1.offset + wsRun t1.input t1.offset + 1
          omega
        · refine ⟨hi1,
            by show t.offset ≤ t1.offset + wsRun t1.input t1.offset + 1; omega,
            by show t1.offset + wsRun t1.input t1.offset + 1 ≤ t.input.length
               rw [← hi1]
               omega,
            Or.inr ?_, Or.inl rfl⟩
          show ts + (t1.offset - ts) ≤ t1.offset + wsRun t1.input t1.offset + 1
          omega

/-! ## Unfolding equations for nextGo at constructor fuel -/

theorem nextGo_zero_eq (t0 : Tokenizer) :
    nextGo 0 t0 =
      if endOfInput (skipWS t0) then Except.ok (setToken Token.End (skipWS t0))
      else
        if inputByte (skipWS t0) (skipWS t0).offset = Char.ofNat 123 then
          Except.ok (setToken Token.ObjectStart
            { skipWS t0 with offset := (skipWS t0).offset + 1 })
        else if inputByte (skipWS t0) (skipWS t0).offset = Char.ofNat 125 then
          Except.ok (readEndBracket Token.ObjectEnd
            { skipWS t0 with offset := (skipWS t0).offset + 1 })
        else if inputByte (skipWS t0) (skipWS t0).offset = '[' then
          Except.ok (setToken Token.ArrayStart
            { skipWS t0 with offset := (skipWS t0).offset + 1 })
        else if inputByte (skipWS t0) (skipWS t0).offset = ']' then
          Except.ok (readEndBracket Token.ArrayEnd
            { skipWS t0 with offset := (skipWS t0).offset + 1 })
        else if inputByte (skipWS t0) (skipWS t0).offset = 'n' then
          Except.ok (readAtom ['u', 'l', 'l'] Token.Null
            { skipWS t0 with offset := (skipWS t0).offset + 1 })
        else if inputByte (skipWS t0) (skipWS t0).offset = 't' then
          Except.ok (readAtom ['r', 'u', 'e'] Token.True
            { skipWS t0 with offset := (skipWS t0).offset + 1 })
        else if inputByte (skipWS t0) (skipWS t0).offset = 'f' then
          Except.ok (readAtom ['a', 'l', 's', 'e'] Token.False
            { skipWS t0 with offset := (skipWS t0).offset + 1 })
        else if inputByte (skipWS t0) (skipWS t0).offset = Char.ofNat 0 then
          Except.ok (setError ErrorCode.InvalidByte
            { skipWS t0 with offset := (skipWS t0).offset + 1 })
        else if inputByte (skipWS t0) (skipWS t0).offset = '"' then
          Except.ok (readString (inputByte (skipWS t0) (skipWS t0).offset)
            (skipWS t0).offset { skipWS t0 with offset := (skipWS t0).offset + 1 })
        else if inputByte (skipWS t0) (skipWS t0).offset = ',' then
          if (skipWS t0).token = Token.ObjectStart ∨
              (skipWS t0).token = Token.ArrayStart ∨
              (skipWS t0).token = Token.Comma then
            Except.ok (setError ErrorCode.UnexpectedComma
              { skipWS t0 with offset := (skipWS t0).offset + 1 })
          else
            Except.ok { skipWS t0 with offset := (skipWS t0).offset + 1 }
        else
          readNumber (inputByte (skipWS t0) (skipWS t0).offset)
            (skipWS t0).offset
            { skipWS t0 with offset := (skipWS t0).offset + 1 } := rfl

theorem nextGo_succ_eq (fuel : Nat) (t0 : Tokenizer) :
    nextGo (fuel + 1) t0 =
      if endOfInput (skipWS t0) then Except.ok (setToken Token.End (skipWS t0))
      else
        if inputByte (skipWS t0) (skipWS t0).offset = Char.ofNat 123 then
          Except.ok (setToken Token.ObjectStart
            { skipWS t0 with offset := (skipWS t0).offset + 1 })
        else if inputByte (skipWS t0) (skipWS t0).offset = Char.ofNat 125 then
          Except.ok (readEndBracket Token.ObjectEnd
            { skipWS t0 with offset := (skipWS t0).offset + 1 })
        else if inputByte (skipWS t0) (skipWS t0).offset = '[' then
          Except.ok (setToken Token.ArrayStart
            { skipWS t0 with offset := (skipWS t0).offset + 1 })
        else if inputByte (skipWS t0) (skipWS t0).offset = ']' then
          Except.ok (readEndBracket Token.ArrayEnd
            { skipWS t0 with offset := (skipWS t0).offset + 1 })
        else if inputByte (skipWS t0) (skipWS t0).offset = 'n' then
          Except.ok (readAtom ['u', 'l', 'l'] Token.Null
            { skipWS t0 with offset := (skipWS t0).offset + 1 })
        else if inputByte (skipWS t0) (skipWS t0).offset = 't' then
          Except.ok (readAtom ['r', 'u', 'e'] Token.True
            { skipWS t0 with offset := (skipWS t0).offset + 1 })
        else if inputByte (skipWS t0) (skipWS t0).offset = 'f' then
          Except.ok (readAtom ['a', 'l', 's', 'e'] Token.False
            { skipWS t0 with offset := (skipWS t0).offset + 1 })
        else if inputByte (skipWS t0) (skipWS t0).offset = Char.ofNat 0 then
          Except.ok (setError ErrorCode.InvalidByte
            { skipWS t0 with offset := (skipWS t0).offset + 1 })
        else if inputByte (skipWS t0) (skipWS t0).offset = '"' then
          Except.ok (readString (inputByte (skipWS t0) (skipWS t0).offset)
            (skipWS t0).offset { skipWS t0 with offset := (skipWS t0).offset + 1 })
        else if inputByte (skipWS t0) (skipWS t0).offset = ',' then
          if (skipWS t0).token = Token.ObjectStart ∨
              (skipWS t0).token = Token.ArrayStart ∨
              (skipWS t0).token = Token.Comma then
            Except.ok (setError ErrorCode.UnexpectedComma
              { skipWS t0 with offset := (skipWS t0).offset + 1 })
          else
            nextGo fuel (setToken Token.Comma
              { skipWS t0 with offset := (skipWS t0).offset + 1 })
        else
          readNumber (inputByte (skipWS t0) (skipWS t0).offset)
            (skipWS t0).offset
            { skipWS t0 with offset := (skipWS t0).offset + 1 } := rfl

/-! ## The master facts about one advance -/

theorem nextGo_facts :
    ∀ (fuel : Nat) (t : Tokenizer),
      availableInput t ≤ fuel → t.offset ≤ t.input.length →
      ∃ t2, nextGo fuel t = Except.ok t2 ∧
        t2.input = t.input ∧ t.offset ≤ t2.offset ∧ t2.offset ≤ t.input.length ∧
        ((t2.valueStart = t.valueStart ∧ t2.valueLen = t.valueLen) ∨
          t2.valueStart + t2.valueLen ≤ t2.offset) ∧
        ((t2.token = Token.Integer ∨ t2.token = Token.Float) →
          t2.valueStart + t2.valueLen = t2.offset) := by
  intro fuel
  induction fuel with
  | zero =>
    intro t hfuel hle
    have hge : t.input.length ≤ t.offset := by
      simp [availableInput] at hfuel
      omega
    have hwr : wsRun t.input t.offset = 0 := runLen_of_ge hge
    rw [nextGo_zero_eq, skipWS_spec]
    rw [if_pos (by
      rw [endOfInput_iff]
      show t.input.length ≤ t.offset + wsRun t.input t.offset
      omega)]
    refine ⟨_, rfl, rfl, ?_, ?_, Or.inl ⟨rfl, rfl⟩, ?_⟩
    · show t.offset ≤ t.offset + wsRun t.input t.offset
      omega
    · show t.offset + wsRun t.input t.offset ≤ t.input.length
      omega
    · intro h
      rcases h with h | h <;> simp [setToken] at h
  | succ fuel ih =>
    intro t hfuel hle
    have hKge : t.offset ≤ t.offset + wsRun t.input t.offset :=
      Nat.le_add_right _ _
    have hKle : t.offset + wsRun t.input t.offset ≤ t.input.length := by
      rcases Nat.lt_or_ge t.offset t.input.length with h | h
      · exact runLen_add_le (Nat.le_of_lt h)
      · have h0 : wsRun t.input t.offset = 0 := runLen_of_ge h
        omega
    rw [nextGo_succ_eq, skipWS_spec]
    set K := t.offset + wsRun t.input t.offset with hKdef
    by_cases hend : endOfInput { t with offset := K } = true
    · rw [if_pos hend]
      refine ⟨_, rfl, rfl, hKge, hKle, Or.inl ⟨rfl, rfl⟩, ?_⟩
      intro h
      rcases h with h | h <;> simp [setToken] at h
    · rw [if_neg hend]
      have hKlt : K < t.input.length := by
        have := endOfInput_not_iff.mp hend
        simpa using this
      set b1 := inputByte { t with offset := K } K with hb1def
      by_cases hq1 : b1 = Char.ofNat 123
      · rw [if_pos hq1]
        refine ⟨_, rfl, rfl, ?_, ?_, Or.inl ⟨rfl, rfl⟩, ?_⟩
        · show t.offset ≤ K + 1
          omega
        · show K + 1 ≤ t.input.length
          omega
        · intro h
          rcases h with h | h <;> simp [setToken] at h
      · rw [if_neg hq1]
        by_cases hq2 : b1 = Char.ofNat 125
        · rw [if_pos hq2]
          obtain ⟨hi, ho, hv1, hv2, htok⟩ := readEndBracket_facts Token.ObjectEnd
            { t with offset := K + 1 }
          have ho2 : (readEndBracket Token.ObjectEnd
              { t with offset := K + 1 }).offset = K + 1 := ho
          refine ⟨_, rfl, hi, ?_, ?_, Or.inl ⟨hv1, hv2⟩, ?_⟩
          · show t.offset ≤ (readEndBracket Token.ObjectEnd
              { t with offset := K + 1 }).offset
            omega
          · show (readEndBracket Token.ObjectEnd
              { t with offset := K + 1 }).offset ≤ t.input.length
            omega
          · intro h
            have h2 : (readEndBracket Token.ObjectEnd
                { t with offset := K + 1 }).token = Token.Integer ∨
                (readEndBracket Token.ObjectEnd
                  { t with offset := K + 1 }).token = Token.Float := h
            rcases htok with he | he <;> rw [he] at h2 <;> simp at h2
        · rw [if_neg hq2]
          by_cases hq3 : b1 = '['
          · rw [if_pos hq3]
            refine ⟨_, rfl, rfl, ?_, ?_, Or.inl ⟨rfl, rfl⟩, ?_⟩
            · show t.offset ≤ K + 1
              omega
            · show K + 1 ≤ t.input.length
              omega
            · intro h
              rcases h with h | h <;> simp [setToken] at h
          · rw [if_neg hq3]
            by_cases hq4 : b1 = ']'
            · rw [if_pos hq4]
              obtain ⟨hi, ho, hv1, hv2, htok⟩ := readEndBracket_facts
                Token.ArrayEnd { t with offset := K + 1 }
              have ho2 : (readEndBracket Token.ArrayEnd
                  { t with offset := K + 1 }).offset = K + 1 := ho
              refine ⟨_, rfl, hi, ?_, ?_, Or.inl ⟨hv1, hv2⟩, ?_⟩
              · show t.offset ≤ (readEndBracket Token.ArrayEnd
                  { t with offset := K + 1 }).offset
                omega
              · show (readEndBracket Token.ArrayEnd
                  { t with offset := K + 1 }).offset ≤ t.input.length
                omega
              · intro h
                have h2 : (readEndBracket Token.ArrayEnd
                    { t with offset := K + 1 }).token = Token.Integer ∨
                    (readEndBracket Token.ArrayEnd
                      { t with offset := K + 1 }).token = Token.Float := h
                rcases htok with he | he <;> rw [he] at h2 <;> simp at h2
            · rw [if_neg hq4]
              by_cases hq5 : b1 = 'n'
              · rw [if_pos hq5]
                obtain ⟨hi, hmo, hlo, hv1, hv2, htok⟩ := readAtom_facts
                  ['u', 'l', 'l'] Token.Null { t with offset := K + 1 }
                  (by show K + 1 ≤ t.input.length; omega)
                have hmo2 : K + 1 ≤ (readAtom ['u', 'l', 'l'] Token.Null
                    { t with offset := K + 1 }).offset := hmo
                have hlo2 : (readAtom ['u', 'l', 'l'] Token.Null
                    { t with offset := K + 1 }).offset ≤ t.input.length := hlo
                refine ⟨_, rfl, hi, ?_, hlo2, Or.inl ⟨hv1, hv2⟩, ?_⟩
                · show t.offset ≤ (readAtom ['u', 'l', 'l'] Token.Null
                    { t with offset := K + 1 }).offset
                  omega
                · intro h
                  have h2 : (readAtom ['u', 'l', 'l'] Token.Null
                      { t with offset := K + 1 }).token = Token.Integer ∨
                      (readAtom ['u', 'l', 'l'] Token.Null
                        { t with offset := K + 1 }).token = Token.Float := h
                  rcases htok with he | he <;> rw [he] at h2 <;> simp at h2
              · rw [if_neg hq5]
                by_cases hq6 : b1 = 't'
                · rw [if_pos hq6]
                  obtain ⟨hi, hmo, hlo, hv1, hv2, htok⟩ := readAtom_facts
                    ['r', 'u', 'e'] Token.True { t with offset := K + 1 }
                    (by show K + 1 ≤ t.input.length; omega)
                  have hmo2 : K + 1 ≤ (readAtom ['r', 'u', 'e'] Token.True
                      { t with offset := K + 1 }).offset := hmo
                  have hlo2 : (readAtom ['r', 'u', 'e'] Token.True
                      { t with offset := K + 1 }).offset ≤ t.input.length := hlo
                  refine ⟨_, rfl, hi, ?_, hlo2, Or.inl ⟨hv1, hv2⟩, ?_⟩
                  · show t.offset ≤ (readAtom ['r', 'u', 'e'] Token.True
                      { t with offset := K + 1 }).offset
                    omega
                  · intro h
                    have h2 : (readAtom ['r', 'u', 'e'] Token.True
                        { t with offset := K + 1 }).token = Token.Integer ∨
                        (readAtom ['r', 'u', 'e'] Token.True
                          { t with offset := K + 1 }).token = Token.Float := h
                    rcases htok with he | he <;> rw [he] at h2 <;> simp at h2
                · rw [if_neg hq6]
                  by_cases hq7 : b1 = 'f'
                  · rw [if_pos hq7]
                    obtain ⟨hi, hmo, hlo, hv1, hv2, htok⟩ := readAtom_facts
                      ['a', 'l', 's', 'e'] Token.False { t with offset := K + 1 }
                      (by show K + 1 ≤ t.input.length; omega)
                    have hmo2 : K + 1 ≤ (readAtom ['a', 'l', 's', 'e'] Token.False
                        { t with offset := K + 1 }).offset := hmo
                    have hlo2 : (readAtom ['a', 'l', 's', 'e'] Token.False
                        { t with offset := K + 1 }).offset ≤ t.input.length := hlo
                    refine ⟨_, rfl, hi, ?_, hlo2, Or.inl ⟨hv1, hv2⟩, ?_⟩
                    · show t.offset ≤ (readAtom ['a', 'l', 's', 'e'] Token.False
                        { t with offset := K + 1 }).offset
                      omega
                    · intro h
                      have h2 : (readAtom ['a', 'l', 's', 'e'] Token.False
                          { t with offset := K + 1 }).token = Token.Integer ∨
                          (readAtom ['a', 'l', 's', 'e'] Token.False
                            { t with offset := K + 1 }).token = Token.Float := h
                      rcases htok with he | he <;> rw [he] at h2 <;> simp at h2
                  · rw [if_neg hq7]
                    by_cases hq8 : b1 = Char.ofNat 0
                    · rw [if_pos hq8]
                      refine ⟨_, rfl, rfl, ?_, ?_, Or.inl ⟨rfl, rfl⟩, ?_⟩
                      · show t.offset ≤ K + 1
                        omega
                      · show K + 1 ≤ t.input.length
                        omega
                      · intro h
                        rcases h with h | h <;> simp [setError] at h
                    · rw [if_neg hq8]
                      by_cases hq9 : b1 = '"'
                      · rw [if_pos hq9]
                        obtain ⟨hi, hmo, hlo, hv, htok⟩ := readString_facts
                          b1 K { t with offset := K + 1 }
                          (by show K ≤ K + 1; omega)
                          (by show K + 1 ≤ t.input.length; omega)
                        have hmo2 : K + 1 ≤ (readString b1 K
                            { t with offset := K + 1 }).offset := hmo
                        have hlo2 : (readString b1 K
                            { t with offset := K + 1 }).offset ≤
                            t.input.length := hlo
                        refine ⟨_, rfl, hi, ?_, hlo2, ?_, ?_⟩
                        · show t.offset ≤ (readString b1 K
                            { t with offset := K + 1 }).offset
                          omega
                        · rcases hv with ⟨ha, hb⟩ | hb
                          · exact Or.inl ⟨ha, hb⟩
                          · exact Or.inr hb
                        · intro h
                          have h2 : (readString b1 K
                              { t with offset := K + 1 }).token = Token.Integer ∨
                              (readString b1 K
                                { t with offset := K + 1 }).token = Token.Float := h
                          rcases htok with he | he | he <;> rw [he] at h2 <;> simp at h2
                      · rw [if_neg hq9]
                        by_cases hq10 : b1 = ','
                        · rw [if_pos hq10]
                          by_cases hq11 : ({ t with offset := K } : Tokenizer).token =
                              Token.ObjectStart ∨
                              ({ t with offset := K } : Tokenizer).token =
                                Token.ArrayStart ∨
                              ({ t with offset := K } : Tokenizer).token =
                                Token.Comma
                          · rw [if_pos hq11]
                            refine ⟨_, rfl, rfl, ?_, ?_, Or.inl ⟨rfl, rfl⟩, ?_⟩
                            · show t.offset ≤ K + 1
                              omega
                            · show K + 1 ≤ t.input.length
                              omega
                            · intro h
                              rcases h with h | h <;> simp [setError] at h
                          · rw [if_neg hq11]
                            obtain ⟨t2, heq, hi, hmo, hlo, hv, hnum⟩ := ih
                              (setToken Token.Comma { t with offset := K + 1 })
                              (by
                                show t.input.length - (K + 1) ≤ fuel
                                simp only [availableInput] at hfuel
                                omega)
                              (by show K + 1 ≤ t.input.length; omega)
                            have hmo2 : K + 1 ≤ t2.offset := hmo
                            refine ⟨t2, heq, hi, by omega, hlo, ?_, hnum⟩
                            rcases hv with ⟨ha, hb⟩ | hb
                            · exact Or.inl ⟨ha, hb⟩
                            · exact Or.inr hb
                        · rw [if_neg hq10]
                          obtain ⟨t2, heq, hi, hmo, hlo, hrest⟩ := readNumber_facts
                            b1 K { t with offset := K + 1 }
                            (by show K ≤ K + 1; omega)
                            (by show K + 1 ≤ t.input.length; omega)
                          have hmo2 : K + 1 ≤ t2.offset := hmo
                          refine ⟨t2, heq, hi, by omega, hlo, ?_, ?_⟩
                          · rcases hrest with ⟨he, ha, hb⟩ | ⟨he, ha, hb⟩
                            · exact Or.inl ⟨ha, hb⟩
                            · exact Or.inr (by omega)
                          · intro h
                            rcases hrest with ⟨he, ha, hb⟩ | ⟨he, ha, hb⟩
                            · rcases h with h | h <;> rw [he] at h <;> simp at h
                            · exact hb

theorem next_facts (t : Tokenizer) (hle : t.offset ≤ t.input.length) :
    ∃ t2, next t = Except.ok t2 ∧
      t2.input = t.input ∧ t.offset ≤ t2.offset ∧ t2.offset ≤ t.input.length ∧
      ((t2.valueStart = t.valueStart ∧ t2.valueLen = t.valueLen) ∨
        t2.valueStart + t2.valueLen ≤ t2.offset) ∧
      ((t2.token = Token.Integer ∨ t2.token = Token.Float) →
        t2.valueStart + t2.valueLen = t2.offset) :=
  nextGo_facts (availableInput t) t (Nat.le_refl _) hle

/-- An advance that returns the End token has consumed the whole
buffer: every return site of nextGo other than the end-of-input branch
produces a token other than End, and the comma recursion preserves the
property. -/
theorem nextGo_end_eoi :
    ∀ (fuel : Nat) (t : Tokenizer) (t2 : Tokenizer),
      availableInput t ≤ fuel → t.offset ≤ t.input.length →
      nextGo fuel t = Except.ok t2 → t2.token = Token.End →
      t2.input.length ≤ t2.offset := by
  intro fuel
  induction fuel with
  | zero =>
    intro t t2 hfuel hle heq htok
    have hge : t.input.length ≤ t.offset := by
      simp [availableInput] at hfuel
      omega
    have h0 : wsRun t.input t.offset = 0 := runLen_of_ge hge
    rw [nextGo_zero_eq, skipWS_spec] at heq
    rw [if_pos (by
      rw [endOfInput_iff]
      show t.input.length ≤ t.offset + wsRun t.input t.offset
      omega)] at heq
    injection heq with h
    subst h
    show t.input.length ≤ t.offset + wsRun t.input t.offset
    omega
  | succ fuel ih =>
    intro t t2 hfuel hle heq htok
    have hKle : t.offset + wsRun t.input t.offset ≤ t.input.length := by
      rcases Nat.lt_or_ge t.offset t.input.length with h | h
      · exact runLen_add_le (Nat.le_of_lt h)
      · have h0 : wsRun t.input t.offset = 0 := runLen_of_ge h
        omega
    rw [nextGo_succ_eq, skipWS_spec] at heq
    set K := t.offset + wsRun t.input t.offset with hKdef
    by_cases hend : endOfInput { t with offset := K } = true
    · rw [if_pos hend] at heq
      injection heq with h
      subst h
      have h1 : t.input.length ≤ K := by
        have := endOfInput_iff.mp hend
        simpa using this
      show t.input.length ≤ K
      omega
    · rw [if_neg hend] at heq
      set b1 := inputByte { t with offset := K } K with hb1def
      by_cases hq1 : b1 = Char.ofNat 123
      · rw [if_pos hq1] at heq
        injection heq with h
        subst h
        simp [setToken] at htok
      · rw [if_neg hq1] at heq
        by_cases hq2 : b1 = Char.ofNat 125
        · rw [if_pos hq2] at heq
          injection heq with h
          subst h
          obtain ⟨hi, ho, hv1, hv2, htok2⟩ := readEndBracket_facts
            Token.ObjectEnd { t with offset := K + 1 }
          rcases htok2 with he | he <;> rw [he] at htok <;> simp at htok
        · rw [if_neg hq2] at heq
          by_cases hq3 : b1 = '['
          · rw [if_pos hq3] at heq
            injection heq with h
            subst h
            simp [setToken] at htok
          · rw [if_neg hq3] at heq
            by_cases hq4 : b1 = ']'
            · rw [if_pos hq4] at heq
              injection heq with h
              subst h
              obtain ⟨hi, ho, hv1, hv2, htok2⟩ := readEndBracket_facts
                Token.ArrayEnd { t with offset := K + 1 }
              rcases htok2 with he | he <;> rw [he] at htok <;> simp at htok
            · rw [if_neg hq4] at heq
              by_cases hq5 : b1 = 'n'
              · rw [if_pos hq5] at heq
                injection heq with h
                subst h
                obtain ⟨hi, hmo, hlo, hv1, hv2, htok2⟩ := readAtom_facts
                  ['u', 'l', 'l'] Token.Null { t with offset := K + 1 }
                  (by show K + 1 ≤ t.input.length
                      have hKlt : K < t.input.length := by
                        have := endOfInput_not_iff.mp hend
                        simpa using this
                      omega)
                rcases htok2 with he | he <;> rw [he] at htok <;> simp at htok
              · rw [if_neg hq5] at heq
                by_cases hq6 : b1 = 't'
                · rw [if_pos hq6] at heq
                  injection heq with h
                  subst h
                  obtain ⟨hi, hmo, hlo, hv1, hv2, htok2⟩ := readAtom_facts
                    ['r', 'u', 'e'] Token.True { t with offset := K + 1 }
                    (by show K + 1 ≤ t.input.length
                        have hKlt : K < t.input.length := by
                          have := endOfInput_not_iff.mp hend
                          simpa using this
                        omega)
                  rcases htok2 with he | he <;> rw [he] at htok <;> simp at htok
                · rw [if_neg hq6] at heq
                  by_cases hq7 : b1 = 'f'
                  · rw [if_pos hq7] at heq
                    injection heq with h
                    subst h
                    obtain ⟨hi, hmo, hlo, hv1, hv2, htok2⟩ := readAtom_facts
                      ['a', 'l', 's', 'e'] Token.False { t with offset := K + 1 }
                      (by show K + 1 ≤ t.input.length
                          have hKlt : K < t.input.length := by
                            have := endOfInput_not_iff.mp hend
                            simpa using this
                          omega)
                    rcases htok2 with he | he <;> rw [he] at htok <;> simp at htok
                  · rw [if_neg hq7] at heq
                    by_cases hq8 : b1 = Char.ofNat 0
                    · rw [if_pos hq8] at heq
                      injection heq with h
                      subst h
                      simp [setError] at htok
                    · rw [if_neg hq8] at heq
                      have hKlt : K < t.input.length := by
                        have := endOfInput_not_iff.mp hend
                        simpa using this
                      by_cases hq9 : b1 = '"'
                      · rw [if_pos hq9] at heq
                        injection heq with h
                        subst h
                        obtain ⟨hi, hmo, hlo, hv, htok2⟩ := readString_facts
                          b1 K { t with offset := K + 1 }
                          (by show K ≤ K + 1; omega)
                          (by show K + 1 ≤ t.input.length; omega)
                        rcases htok2 with he | he | he <;> rw [he] at htok <;>
                          simp at htok
                      · rw [if_neg hq9] at heq
                        by_cases hq10 : b1 = ','
                        · rw [if_pos hq10] at heq
                          by_cases hq11 : ({ t with offset := K } :
                                Tokenizer).token = Token.ObjectStart ∨
                              ({ t with offset := K } : Tokenizer).token =
                                Token.ArrayStart ∨
                              ({ t with offset := K } : Tokenizer).token =
                                Token.Comma
                          · rw [if_pos hq11] at heq
                            injection heq with h
                            subst h
                            simp [setError] at htok
                          · rw [if_neg hq11] at heq
                            exact ih (setToken Token.Comma
                                { t with offset := K + 1 })
                              t2
                              (by
                                show t.input.length - (K + 1) ≤ fuel
                                simp only [availableInput] at hfuel
                                have : t.offset ≤ K := Nat.le_add_right _ _
                                omega)
                              (by show K + 1 ≤ t.input.length; omega)
                              heq htok
                        · rw [if_neg hq10] at heq
                          obtain ⟨t3, heq3, hi, hmo, hlo, hrest⟩ :=
                            readNumber_facts b1 K { t with offset := K + 1 }
                              (by show K ≤ K + 1; omega)
                              (by show K + 1 ≤ t.input.length; omega)
                          rw [heq3] at heq
                          injection heq with h
                          subst h
                          rcases hrest with ⟨he, ha, hb⟩ | ⟨he, ha, hb⟩
                          · rw [he] at htok
                            simp at htok
                          · rcases he with he | he <;> rw [he] at htok <;>
                              simp at htok

/-! ## Claim theorems settled through the master facts -/


/-- C4: no step of scanning reads a byte at or past the caller-supplied
buffer length: in this total embedding, where the one unguarded read
of the C++ code (the readExponent sign probe) is an explicit
out-of-bounds branch, every advance returns through Except.ok — the
out-of-bounds branch is unreachable.  The shield is the rewind
behaviour of readDigits: an exponent introducer is only ever seen at
the cursor after a rewind, which implies at least one more byte
follows it (digitsStop_facts). -/
theorem C4_no_oob_read (t : Tokenizer) : ∃ t2, next t = Except.ok t2 := by
  rcases Nat.le_total t.offset t.input.length with hle | hge2
  · obtain ⟨t2, heq, hrest⟩ := next_facts t hle
    exact ⟨t2, heq⟩
  · have hav : availableInput t = 0 := by
      simp [availableInput]
      omega
    have h0 : wsRun t.input t.offset = 0 := runLen_of_ge hge2
    rw [next, hav, nextGo_zero_eq, skipWS_spec]
    rw [if_pos (by
      rw [endOfInput_iff]
      show t.input.length ≤ t.offset + wsRun t.input t.offset
      omega)]
    exact ⟨_, rfl⟩

/-- C8: once an advance returns End the scanner is at end of input, and
a further advance returns End again with the state — in particular the
cursor — unchanged: next is idempotent at End. -/
theorem C8_end_idempotent (t t2 : Tokenizer) (hle : t.offset ≤ t.input.length)
    (heq : next t = Except.ok t2) (htok : t2.token = Token.End) :
    next t2 = Except.ok t2 := by
  have heoi : t2.input.length ≤ t2.offset :=
    nextGo_end_eoi (availableInput t) t t2 (Nat.le_refl _) hle heq htok
  have hav : availableInput t2 = 0 := by
    simp [availableInput]
    omega
  have h0 : wsRun t2.input t2.offset = 0 := runLen_of_ge heoi
  rw [next, hav, nextGo_zero_eq, skipWS_spec]
  rw [if_pos (by
    rw [endOfInput_iff]
    show t2.input.length ≤ t2.offset + wsRun t2.input t2.offset
    omega)]
  obtain ⟨inp, off, tok, err, vs, vl⟩ := t2
  simp only at htok h0
  simp [setToken, h0, htok]

/-- Witness for C8_end_idempotent at the empty buffer. -/
theorem C8_end_idempotent_witness :
    next (stepTok (mkT [])) = Except.ok (stepTok (mkT [])) :=
  C8_end_idempotent (mkT []) (stepTok (mkT [])) (by decide) rfl (by decide)

/-! ## Case analysis of readAtom and the atom claims -/

theorem readAtom_cases (rest : List Char) (tok : Token) (t1 : Tokenizer) :
    (availableInput t1 < rest.length →
      readAtom rest tok t1 = setError ErrorCode.PrematureEndOfInput t1) ∧
    (rest.length ≤ availableInput t1 →
      ¬ ((t1.input.drop t1.offset).take rest.length = rest) →
      readAtom rest tok t1 = setError ErrorCode.InvalidByte t1) ∧
    ((t1.input.drop t1.offset).take rest.length = rest →
      rest.length < availableInput t1 →
      isAlnumChar (inputByte t1 (t1.offset + rest.length)) = true →
      readAtom rest tok t1 = setError ErrorCode.SyntaxError t1) ∧
    ((t1.input.drop t1.offset).take rest.length = rest →
      (availableInput t1 = rest.length ∨
        isAlnumChar (inputByte t1 (t1.offset + rest.length)) = false) →
      readAtom rest tok t1 = setToken tok
        { t1 with offset := t1.offset + rest.length }) := by
  refine ⟨?_, ?_, ?_, ?_⟩
  · intro h
    rw [readAtom, if_pos h]
  · intro h1 h2
    rw [readAtom, if_neg (by omega), if_pos h2]
  · intro h1 h2 h3
    rw [readAtom, if_neg (by omega), if_neg (by rw [h1]; exact fun h => h rfl),
      if_pos ⟨h2, h3⟩]
  · intro h1 h2
    have hge : rest.length ≤ availableInput t1 := by
      have hl := congrArg List.length h1
      rw [List.length_take, List.length_drop] at hl
      simp only [availableInput]
      omega
    rw [readAtom, if_neg (by omega), if_neg (by rw [h1]; exact fun h => h rfl),
      if_neg (by
        rintro ⟨ha, hb⟩
        rcases h2 with h2 | h2
        · omega
        · rw [h2] at hb
          exact Bool.false_ne_true hb)]

theorem next_dispatch_n (t u : Tokenizer) (hsk : skipWS t = u)
    (hlt : u.offset < u.input.length) (hbyte : inputByte u u.offset = 'n') :
    next t = Except.ok (readAtom ['u', 'l', 'l'] Token.Null
      { u with offset := u.offset + 1 }) := by
  have hiu : u.input = t.input := by
    rw [← hsk, skipWS_spec]
  have hoff : t.offset ≤ u.offset := by
    rw [← hsk, skipWS_spec]
    exact Nat.le_add_right _ _
  obtain ⟨k, hk⟩ : ∃ k, availableInput t = k + 1 := by
    refine ⟨availableInput t - 1, ?_⟩
    have : u.offset < t.input.length := by rw [← hiu]; exact hlt
    simp only [availableInput]
    omega
  rw [next, hk, nextGo_succ_eq, hsk, hbyte]
  rw [if_neg (by rw [endOfInput_iff]; omega)]
  rw [if_neg (by decide), if_neg (by decide), if_neg (by decide),
    if_neg (by decide), if_pos (by decide)]

theorem next_dispatch_t (t u : Tokenizer) (hsk : skipWS t = u)
    (hlt : u.offset < u.input.length) (hbyte : inputByte u u.offset = 't') :
    next t = Except.ok (readAtom ['r', 'u', 'e'] Token.True
      { u with offset := u.offset + 1 }) := by
  have hiu : u.input = t.input := by
    rw [← hsk, skipWS_spec]
  have hoff : t.offset ≤ u.offset := by
    rw [← hsk, skipWS_spec]
    exact Nat.le_add_right _ _
  obtain ⟨k, hk⟩ : ∃ k, availableInput t = k + 1 := by
    refine ⟨availableInput t - 1, ?_⟩
    have : u.offset < t.input.length := by rw [← hiu]; exact hlt
    simp only [availableInput]
    omega
  rw [next, hk, nextGo_succ_eq, hsk, hbyte]
  rw [if_neg (by rw [endOfInput_iff]; omega)]
  rw [if_neg (by decide), if_neg (by decide), if_neg (by decide),
    if_neg (by decide), if_neg (by decide), if_pos (by decide)]

theorem next_dispatch_f (t u : Tokenizer) (hsk : skipWS t = u)
    (hlt : u.offset < u.input.length) (hbyte : inputByte u u.offset = 'f') :
    next t = Except.ok (readAtom ['a', 'l', 's', 'e'] Token.False
      { u with offset := u.offset + 1 }) := by
  have hiu : u.input = t.input := by
    rw [← hsk, skipWS_spec]
  have hoff : t.offset ≤ u.offset := by
    rw [← hsk, skipWS_spec]
    exact Nat.le_add_right _ _
  obtain ⟨k, hk⟩ : ∃ k, availableInput t = k + 1 := by
    refine ⟨availableInput t - 1, ?_⟩
    have : u.offset < t.input.length := by rw [← hiu]; exact hlt
    simp only [availableInput]
    omega
  rw [next, hk, nextGo_succ_eq, hsk, hbyte]
  rw [if_neg (by rw [endOfInput_iff]; omega)]
  rw [if_neg (by decide), if_neg (by decide), if_neg (by decide),
    if_neg (by decide), if_neg (by decide), if_neg (by decide),
    if_pos (by decide)]

theorem atomClaim_of_dispatch (c : Char) (rest : List Char) (tok : Token)
    (hdisp : ∀ t u : Tokenizer, skipWS t = u → u.offset < u.input.length →
      inputByte u u.offset = c →
      next t = Except.ok (readAtom rest tok { u with offset := u.offset + 1 })) :
    atomClaim c rest tok := by
  intro t u hsk hlt hbyte
  have heq := hdisp t u hsk hlt hbyte
  have hcons : u.input.drop u.offset = c :: u.input.drop (u.offset + 1) := by
    rw [← hbyte, inputByte_eq hlt]
    exact List.drop_eq_getElem_cons hlt
  have hcases := readAtom_cases rest tok { u with offset := u.offset + 1 }
  have havl : availableInput { u with offset := u.offset + 1 } =
      u.input.length - (u.offset + 1) := rfl
  refine ⟨?_, ?_, ?_, ?_⟩
  · intro h
    refine ⟨_, heq, ?_⟩
    rw [hcases.1 (by rw [havl]; omega)]
    exact ⟨rfl, rfl⟩
  · intro h1 h2
    refine ⟨_, heq, ?_⟩
    have h3 : ¬ (({ u with offset := u.offset + 1 } :
        Tokenizer).input.drop (u.offset + 1)).take rest.length = rest := by
      intro hc
      apply h2
      rw [hcons, List.take_succ_cons]
      show c :: (u.input.drop (u.offset + 1)).take rest.length = c :: rest
      rw [hc]
    rw [hcases.2.1 (by rw [havl]; omega) h3]
    exact ⟨rfl, rfl⟩
  · intro h1 h2 h3
    refine ⟨_, heq, ?_⟩
    have htk : (({ u with offset := u.offset + 1 } :
        Tokenizer).input.drop (u.offset + 1)).take rest.length = rest := by
      rw [hcons, List.take_succ_cons] at h1
      exact (List.cons.injEq _ _ _ _).mp h1 |>.2
    have hax : isAlnumChar (inputByte { u with offset := u.offset + 1 }
        (u.offset + 1 + rest.length)) = true := by
      have harith : u.offset + 1 + rest.length = u.offset + (rest.length + 1) := by
        omega
      rw [harith]
      exact h3
    rw [hcases.2.2.1 htk (by rw [havl]; omega) hax]
    exact ⟨rfl, rfl⟩
  · intro h1 h2
    have htk : (({ u with offset := u.offset + 1 } :
        Tokenizer).input.drop (u.offset + 1)).take rest.length = rest := by
      rw [hcons, List.take_succ_cons] at h1
      exact (List.cons.injEq _ _ _ _).mp h1 |>.2
    have hd : availableInput { u with offset := u.offset + 1 } = rest.length ∨
        isAlnumChar (inputByte { u with offset := u.offset + 1 }
          (u.offset + 1 + rest.length)) = false := by
      rcases h2 with h2 | h2
      · left
        rw [havl]
        omega
      · right
        have harith : u.offset + 1 + rest.length = u.offset + (rest.length + 1) := by
          omega
        rw [harith]
        exact h2
    refine ⟨_, heq, ?_⟩
    rw [hcases.2.2.2 htk hd]
    refine ⟨rfl, ?_⟩
    show u.offset + 1 + rest.length = u.offset + (rest.length + 1)
    omega

/-- C6: atom matching for the three keywords.  From any state whose
next significant byte is n, t or f: fewer remaining bytes than the
keyword needs yields Error PrematureEndOfInput; a byte mismatch yields
Error InvalidByte; a full match immediately followed by an
alphanumeric byte yields Error SyntaxError; otherwise the advance
yields Null, True or False and the cursor lands exactly 4, 4 or 5
bytes past the keyword start. -/
theorem C6_atoms :
    atomClaim 'n' ['u', 'l', 'l'] Token.Null ∧
    atomClaim 't' ['r', 'u', 'e'] Token.True ∧
    atomClaim 'f' ['a', 'l', 's', 'e'] Token.False :=
  ⟨atomClaim_of_dispatch _ _ _ next_dispatch_n,
   atomClaim_of_dispatch _ _ _ next_dispatch_t,
   atomClaim_of_dispatch _ _ _ next_dispatch_f⟩

/-- Witness for C6_atoms: scanning the exact buffer null produces the
Null token with the cursor moved exactly 4 bytes. -/
theorem C6_atoms_witness :
    ∃ t2, next (mkT ("null".toList)) = Except.ok t2 ∧
      t2.token = Token.Null ∧ t2.offset = 4 :=
  (C6_atoms.1 (mkT ("null".toList)) (mkT ("null".toList)) rfl (by decide) rfl).2.2.2
    (by decide) (Or.inl (by decide))

/-! ## Further generic list facts for the conversion layer -/

theorem getD_eq_getElem {l : List Char} {i : Nat} (h : i < l.length) :
    l.getD i 'A' = l[i] := by
  simp [List.getD_eq_getElem?_getD, List.getElem?_eq_getElem h]

theorem dropWhile_eq_drop_len {p : Char → Bool} :
    ∀ l : List Char, l.dropWhile p = l.drop (l.takeWhile p).length := by
  intro l
  induction l with
  | nil => rfl
  | cons a l ih =>
    by_cases h : p a
    · simp [List.dropWhile_cons, List.takeWhile_cons, h, ih]
    · simp [List.dropWhile_cons, List.takeWhile_cons, h]

theorem takeWhile_append_stop {p : Char → Bool} :
    ∀ (d r : List Char), (∀ c ∈ d, p c = true) →
      (r = [] ∨ ∃ c r2, r = c :: r2 ∧ p c = false) →
      (d ++ r).takeWhile p = d ∧ (d ++ r).dropWhile p = r := by
  intro d
  induction d with
  | nil =>
    intro r _ hr
    rcases hr with rfl | ⟨c, r2, rfl, hc⟩
    · exact ⟨rfl, rfl⟩
    · constructor
      · simp [List.takeWhile_cons, hc]
      · simp [List.dropWhile_cons, hc]
  | cons a d ih =>
    intro r hd hr
    have ha : p a = true := hd a (List.mem_cons_self _ _)
    have hih := ih r (fun c hc => hd c (List.mem_cons_of_mem _ hc)) hr
    constructor
    · simp [List.takeWhile_cons, ha, hih.1]
    · simp [List.dropWhile_cons, ha, hih.2]

theorem mem_takeWhile {p : Char → Bool} :
    ∀ (l : List Char) (c : Char), c ∈ l.takeWhile p → p c = true := by
  intro l
  induction l with
  | nil =>
    intro c hc
    simp at hc
  | cons a l ih =>
    intro c hc
    by_cases h : p a
    · rw [List.takeWhile_cons_of_pos h] at hc
      rcases List.mem_cons.mp hc with rfl | hc2
      · exact h
      · exact ih c hc2
    · rw [List.takeWhile_cons_of_neg (by simp [h])] at hc
      simp at hc

/-- A clean readDigits stop (rest position strictly inside the buffer):
the cursor rests exactly past the maximal digit run, the buffer from
the start splits as that run plus the rest, and the byte at the rest
position is not a digit. -/
theorem digits_seg {l : List Char} {i : Nat} (hstop : digitsStop l i < l.length) :
    digitsStop l i = i + digitRun l i ∧
    l.drop i = (l.drop i).takeWhile isDigitChar ++ l.drop (digitsStop l i) ∧
    ((l.drop i).takeWhile isDigitChar).length = digitRun l i ∧
    (∀ c ∈ (l.drop i).takeWhile isDigitChar, isDigitChar c = true) ∧
    isDigitChar (l.getD (digitsStop l i) 'A') = false := by
  have hclean : digitsStop l i = i + digitRun l i ∧
      ¬ (l.length ≤ i + digitRun l i + 1) := by
    by_cases hc : l.length ≤ i + digitRun l i + 1
    · exfalso
      have : digitsStop l i = l.length := by
        simp only [digitsStop]
        rw [if_pos hc]
      omega
    · refine ⟨?_, hc⟩
      simp only [digitsStop]
      rw [if_neg hc]
  have hlen : ((l.drop i).takeWhile isDigitChar).length = digitRun l i := rfl
  have hdr : runLen isDigitChar l i = digitRun l i := rfl
  refine ⟨hclean.1, ?_, hlen, fun c hc => mem_takeWhile _ c hc, ?_⟩
  · conv_lhs => rw [← List.takeWhile_append_dropWhile (p := isDigitChar) (l := l.drop i)]
    rw [dropWhile_eq_drop_len, hlen, List.drop_drop, hclean.1]
  · have hb := runLen_boundary (p := isDigitChar) (l := l) (i := i)
      (by have h1 := hclean.2; omega)
    rw [hclean.1, getD_eq_getElem (by have h1 := hclean.2; omega)]
    exact hb

/-! ## Byte classification facts for the conversion layer -/

theorem isDigitChar_facts {c : Char} (h : isDigitChar c = true) :
    wsC c = false ∧ c ≠ '-' ∧ c ≠ '+' ∧ c ≠ '.' ∧ c ≠ 'e' ∧ c ≠ 'E' ∧
      c ≠ 'x' ∧ c ≠ 'X' := by
  refine ⟨?_, ?_, ?_, ?_, ?_, ?_, ?_, ?_⟩
  · by_contra hws
    rw [Bool.not_eq_false] at hws
    have hws2 : c = ' ' ∨ c = Char.ofNat 9 ∨ c = Char.ofNat 10 ∨
        c = Char.ofNat 11 ∨ c = Char.ofNat 12 ∨ c = Char.ofNat 13 :=
      of_decide_eq_true hws
    rcases hws2 with h1 | h1 | h1 | h1 | h1 | h1 <;>
      (subst h1; exact absurd h (by decide))
  · intro h1
    subst h1
    exact absurd h (by decide)
  · intro h1
    subst h1
    exact absurd h (by decide)
  · intro h1
    subst h1
    exact absurd h (by decide)
  · intro h1
    subst h1
    exact absurd h (by decide)
  · intro h1
    subst h1
    exact absurd h (by decide)
  · intro h1
    subst h1
    exact absurd h (by decide)
  · intro h1
    subst h1
    exact absurd h (by decide)

theorem isExponentIntroducer_facts {c : Char} (h : isExponentIntroducer c = true) :
    isDigitChar c = false ∧ c ≠ '.' ∧ c ≠ 'x' ∧ c ≠ 'X' ∧ c ≠ '-' ∧ c ≠ '+' ∧
      decide (c = 'e' ∨ c = 'E') = true := by
  have hp : c = 'E' ∨ c = 'e' := of_decide_eq_true h
  rcases hp with rfl | rfl <;>
    exact ⟨by decide, by decide, by decide, by decide, by decide, by decide,
      by decide⟩

theorem isPlusMinus_cases {c : Char} (h : isPlusMinus c = true) :
    c = '+' ∨ c = '-' :=
  of_decide_eq_true h

/-- The byte run that follows a scanned number part never begins with a
decimal digit: a fraction begins with the point, an exponent with its
introducer, and an explicit terminator is a non-digit by hypothesis. -/
theorem numRest_stop (fr ex tail : List Char)
    (hfr : fr = [] ∨ ∃ d2, fr = '.' :: d2 ∧ ∀ c ∈ d2, isDigitChar c = true)
    (hex : ex = [] ∨ ∃ c s d3, ex = c :: (s ++ d3) ∧ isExponentIntroducer c = true ∧
      (s = [] ∨ ∃ c2, s = [c2] ∧ isPlusMinus c2 = true) ∧ d3 ≠ [] ∧
      (∀ x ∈ d3, isDigitChar x = true))
    (htail : tail = [] ∨ ∃ c r2, tail = c :: r2 ∧ isDigitChar c = false) :
    fr ++ (ex ++ tail) = [] ∨
      ∃ c r2, fr ++ (ex ++ tail) = c :: r2 ∧ isDigitChar c = false := by
  rcases hfr with rfl | ⟨d2, rfl, _⟩
  · rcases hex with rfl | ⟨c, s, d3, rfl, hc, _, _, _⟩
    · simpa using htail
    · right
      exact ⟨c, s ++ d3 ++ tail, by simp, (isExponentIntroducer_facts hc).1⟩
  · right
    exact ⟨'.', d2 ++ (ex ++ tail), by simp, by decide⟩

/-! ## strtoll on a scanned number shape -/

theorem strtollRun_structured (d1 rest : List Char)
    (hne : d1 ≠ []) (hdig : ∀ c ∈ d1, isDigitChar c = true)
    (hstop : rest = [] ∨ ∃ c r2, rest = c :: r2 ∧ isDigitChar c = false) :
    strtollRun (d1 ++ rest) = (d1.length, (digitsVal d1 : Int)) ∧
    strtollRun ('-' :: (d1 ++ rest)) = (1 + d1.length, -(digitsVal d1 : Int)) := by
  obtain ⟨a, d1x, rfl⟩ : ∃ a d1x, d1 = a :: d1x := by
    cases d1 with
    | nil => exact absurd rfl hne
    | cons a d1x => exact ⟨a, d1x, rfl⟩
  have ha : isDigitChar a = true := hdig a (List.mem_cons_self _ _)
  have haf := isDigitChar_facts ha
  have htw := takeWhile_append_stop (p := isDigitChar) (a :: d1x) rest hdig hstop
  have hws0 : ((a :: d1x) ++ rest).takeWhile wsC = [] := by
    rw [List.cons_append, List.takeWhile_cons_of_neg (by simp [haf.1])]
  constructor
  · simp only [strtollRun, hws0, List.length_nil, List.drop_zero]
    split
    · rename_i r heq
      rw [List.cons_append] at heq
      injection heq with h1 _
      exact absurd h1 haf.2.1
    · rename_i r heq
      rw [List.cons_append] at heq
      injection heq with h1 _
      exact absurd h1 haf.2.2.1
    · rw [htw.1, if_neg (by simp)]
      simp
  · have hws1 : ('-' :: ((a :: d1x) ++ rest)).takeWhile wsC = [] := by
      rw [List.takeWhile_cons_of_neg (by decide)]
    simp only [strtollRun, hws1, List.length_nil, List.drop_zero]
    rw [htw.1, if_neg (by simp)]

/-! ## strtod on a scanned number shape -/

theorem drop_append_len : ∀ (A Z : List Char), (A ++ Z).drop A.length = Z := by
  intro A
  induction A with
  | nil => intro Z; rfl
  | cons a A ih =>
    intro Z
    simpa using ih Z

theorem take_append_len : ∀ (A Z : List Char), (A ++ Z).take A.length = A := by
  intro A
  induction A with
  | nil => intro Z; rfl
  | cons a A ih =>
    intro Z
    simpa using ih Z

theorem expPart_none (intro : Char → Bool) (tail : List Char)
    (htail : tail = [] ∨ ∃ c r2, tail = c :: r2 ∧ intro c = false) :
    expPart intro tail = (0, 0) := by
  rcases htail with rfl | ⟨c, r2, rfl, hc⟩
  · rfl
  · simp only [expPart, hc]
    rw [if_neg (by simp [hc])]

theorem expDigits_structured (s d3 tail : List Char)
    (hs : s = [] ∨ s = ['+'] ∨ s = ['-'])
    (hd3ne : d3 ≠ []) (hd3 : ∀ x ∈ d3, isDigitChar x = true)
    (htail : tail = [] ∨ ∃ c r2, tail = c :: r2 ∧ isDigitChar c = false) :
    expDigits ((s ++ d3) ++ tail) =
      (s.length + d3.length,
        if s = ['-'] then -(digitsVal d3 : Int) else (digitsVal d3 : Int)) := by
  have htw := takeWhile_append_stop (p := isDigitChar) d3 tail hd3 htail
  obtain ⟨a, d3x, rfl⟩ : ∃ a d3x, d3 = a :: d3x := by
    cases d3 with
    | nil => exact absurd rfl hd3ne
    | cons a d3x => exact ⟨a, d3x, rfl⟩
  have ha := isDigitChar_facts (hd3 a (List.mem_cons_self _ _))
  rcases hs with rfl | rfl | rfl
  · simp only [List.nil_append]
    simp only [expDigits]
    split
    · rename_i r heq
      rw [List.cons_append] at heq
      injection heq with h1 _
      exact absurd h1 ha.2.2.1
    · rename_i r heq
      rw [List.cons_append] at heq
      injection heq with h1 _
      exact absurd h1 ha.2.1
    · rw [htw.1, if_neg (by simp)]
      simp
  · have hL : ((['+'] ++ (a :: d3x)) ++ tail) = '+' :: ((a :: d3x) ++ tail) := by
      simp
    rw [hL]
    simp only [expDigits]
    rw [htw.1, if_neg (by simp)]
    simp
  · have hL : ((['-'] ++ (a :: d3x)) ++ tail) = '-' :: ((a :: d3x) ++ tail) := by
      simp
    rw [hL]
    simp only [expDigits]
    rw [htw.1, if_neg (by simp)]
    simp

theorem expPart_structured (intro : Char → Bool) (c : Char) (s d3 tail : List Char)
    (hc : intro c = true)
    (hs : s = [] ∨ s = ['+'] ∨ s = ['-'])
    (hd3ne : d3 ≠ []) (hd3 : ∀ x ∈ d3, isDigitChar x = true)
    (htail : tail = [] ∨ ∃ c2 r2, tail = c2 :: r2 ∧ isDigitChar c2 = false) :
    expPart intro ((c :: (s ++ d3)) ++ tail) =
      (1 + (s.length + d3.length),
        if s = ['-'] then -(digitsVal d3 : Int) else (digitsVal d3 : Int)) := by
  have hL : (c :: (s ++ d3)) ++ tail = c :: ((s ++ d3) ++ tail) := by simp
  rw [hL]
  simp only [expPart, hc, if_true]
  rw [expDigits_structured s d3 tail hs hd3ne hd3 htail]
  have hne : ¬ (s.length + d3.length = 0) := by
    have h1 : d3.length ≠ 0 := by simpa using hd3ne
    omega
  simp [hne]

theorem decMantissa_nofr (d1 tail : List Char)
    (hne : d1 ≠ []) (hd1 : ∀ c ∈ d1, isDigitChar c = true)
    (htail : tail = [] ∨ ∃ c r2, tail = c :: r2 ∧ isDigitChar c = false ∧ ¬ (c = '.')) :
    decMantissa (d1 ++ tail) = some (d1.length, digitsVal d1, 1) := by
  have htw := takeWhile_append_stop (p := isDigitChar) d1 tail hd1
    (by
      rcases htail with rfl | ⟨c, r2, rfl, hc, _⟩
      · exact Or.inl rfl
      · exact Or.inr ⟨c, r2, rfl, hc⟩)
  have hdrop : (d1 ++ tail).drop d1.length = tail := drop_append_len d1 tail
  have hlen0 : ¬ (d1.length = 0) := by simpa using hne
  rcases htail with rfl | ⟨c, r2, rfl, hc, hcdot⟩
  · simp only [decMantissa, htw.1, hdrop]
    rw [if_neg hlen0]
  · simp only [decMantissa, htw.1, hdrop]
    split
    · rename_i r heq
      injection heq with h1 _
      exact absurd h1 hcdot
    · rw [if_neg hlen0]

theorem decMantissa_fr (d1 d2 tail : List Char)
    (hne : d1 ≠ []) (hd1 : ∀ c ∈ d1, isDigitChar c = true)
    (hd2 : ∀ c ∈ d2, isDigitChar c = true)
    (htail : tail = [] ∨ ∃ c r2, tail = c :: r2 ∧ isDigitChar c = false) :
    decMantissa ((d1 ++ ('.' :: d2)) ++ tail) =
      some (d1.length + 1 + d2.length,
        digitsVal d1 * 10 ^ d2.length + digitsVal d2, 10 ^ d2.length) := by
  have hL : (d1 ++ ('.' :: d2)) ++ tail = d1 ++ ('.' :: (d2 ++ tail)) := by simp
  rw [hL]
  have htw := takeWhile_append_stop (p := isDigitChar) d1 ('.' :: (d2 ++ tail)) hd1
    (Or.inr ⟨'.', d2 ++ tail, rfl, by decide⟩)
  have hdrop : (d1 ++ ('.' :: (d2 ++ tail))).drop d1.length = '.' :: (d2 ++ tail) :=
    drop_append_len d1 _
  have htw2 := takeWhile_append_stop (p := isDigitChar) d2 tail hd2 htail
  simp only [decMantissa, htw.1, hdrop, htw2.1]
  rw [if_neg (by
    rintro ⟨h1, _⟩
    exact hne (List.length_eq_zero.mp h1))]

/-- Unless the buffer opens with the 0x / 0X hexadecimal prefix, strtod
parses the decimal form. -/
theorem strtodBody_eq_decimalBody (l : List Char)
    (h : ∀ x r2, l = '0' :: x :: r2 → ¬ (x = 'x' ∨ x = 'X')) :
    strtodBody l = decimalBody l := by
  simp only [strtodBody]
  split
  · rename_i x r2
    rw [if_neg (h x r2 rfl)]
  · rfl

/-- The second byte of a scanned number body is never the x of a
hexadecimal prefix, except in the excluded bare-zero case. -/
theorem hexGuard (a : Char) (d1x fr ex tail : List Char)
    (hd1x : ∀ c ∈ d1x, isDigitChar c = true)
    (hfr : fr = [] ∨ ∃ d2, fr = '.' :: d2 ∧ ∀ c ∈ d2, isDigitChar c = true)
    (hex : ex = [] ∨ ∃ c s d3, ex = c :: (s ++ d3) ∧ isExponentIntroducer c = true ∧
      (s = [] ∨ ∃ c2, s = [c2] ∧ isPlusMinus c2 = true) ∧ d3 ≠ [] ∧
      (∀ x ∈ d3, isDigitChar x = true))
    (htailhex : a = '0' → d1x = [] → fr = [] → ex = [] →
      (tail = [] ∨ ∃ c r2, tail = c :: r2 ∧ ¬ (c = 'x' ∨ c = 'X'))) :
    ∀ x r2, a :: (d1x ++ (fr ++ (ex ++ tail))) = '0' :: x :: r2 →
      ¬ (x = 'x' ∨ x = 'X') := by
  intro x r2 heq hxx
  injection heq with h1 h2
  cases d1x with
  | cons b d1y =>
    rw [List.cons_append] at h2
    injection h2 with h3 _
    have hb := hd1x b (List.mem_cons_self _ _)
    rw [h3] at hb
    rcases hxx with rfl | rfl <;> exact absurd hb (by decide)
  | nil =>
    rw [List.nil_append] at h2
    rcases hfr with rfl | ⟨d2, rfl, _⟩
    · rcases hex with rfl | ⟨c, s, d3, rfl, hc, _, _, _⟩
      · rw [List.nil_append, List.nil_append] at h2
        have ht := htailhex h1 rfl rfl rfl
        rcases ht with rfl | ⟨c2, r3, rfl, hc2⟩
        · exact absurd h2 (by simp)
        · injection h2 with h3 _
          rw [← h3] at hxx
          exact hc2 hxx
      · rw [List.nil_append, List.cons_append] at h2
        injection h2 with h3 _
        rcases hxx with rfl | rfl
        · exact (isExponentIntroducer_facts hc).2.2.1 h3
        · exact (isExponentIntroducer_facts hc).2.2.2.1 h3
    · rw [List.cons_append] at h2
      injection h2 with h3 _
      rcases hxx with rfl | rfl <;> exact absurd h3 (by decide)

theorem strtodBody_agree (d1 fr ex : List Char) (T : Char) (r : List Char)
    (hne : d1 ≠ []) (hd1 : ∀ c ∈ d1, isDigitChar c = true)
    (hfr : fr = [] ∨ ∃ d2, fr = '.' :: d2 ∧ ∀ c ∈ d2, isDigitChar c = true)
    (hex : ex = [] ∨ ∃ c s d3, ex = c :: (s ++ d3) ∧ isExponentIntroducer c = true ∧
      (s = [] ∨ ∃ c2, s = [c2] ∧ isPlusMinus c2 = true) ∧ d3 ≠ [] ∧
      (∀ x ∈ d3, isDigitChar x = true))
    (hT : isDigitChar T = false)
    (hTe : ex = [] → ¬ (T = 'e' ∨ T = 'E'))
    (hTdot : fr = [] → ex = [] → ¬ (T = '.'))
    (hhex : ¬ (d1 = ['0'] ∧ fr = [] ∧ ex = [] ∧ (T = 'x' ∨ T = 'X'))) :
    strtodBody (d1 ++ (fr ++ (ex ++ (T :: r)))) = strtodBody (d1 ++ (fr ++ ex)) ∧
    0 < (strtodBody (d1 ++ (fr ++ ex))).1 := by
  obtain ⟨a, d1x, rfl⟩ : ∃ a d1x, d1 = a :: d1x := by
    cases d1 with
    | nil => exact absurd rfl hne
    | cons a d1x => exact ⟨a, d1x, rfl⟩
  have hd1x : ∀ c ∈ d1x, isDigitChar c = true :=
    fun c hc => hd1 c (List.mem_cons_of_mem _ hc)
  have hGA : strtodBody ((a :: d1x) ++ (fr ++ (ex ++ (T :: r)))) =
      decimalBody ((a :: d1x) ++ (fr ++ (ex ++ (T :: r)))) := by
    rw [List.cons_append]
    refine strtodBody_eq_decimalBody _ (hexGuard a d1x fr ex (T :: r) hd1x hfr hex ?_)
    intro ha0 h1 h2 h3
    right
    refine ⟨T, r, rfl, ?_⟩
    intro hx
    exact hhex ⟨by rw [ha0, h1], h2, h3, hx⟩
  have hGB : strtodBody ((a :: d1x) ++ (fr ++ ex)) =
      decimalBody ((a :: d1x) ++ (fr ++ ex)) := by
    have hL : (a :: d1x) ++ (fr ++ ex) = a :: (d1x ++ (fr ++ (ex ++ []))) := by simp
    rw [hL]
    have hG := strtodBody_eq_decimalBody (a :: (d1x ++ (fr ++ (ex ++ []))))
      (hexGuard a d1x fr ex [] hd1x hfr hex (fun _ _ _ _ => Or.inl rfl))
    rw [hG]
  rw [hGA, hGB]
  rcases hfr with rfl | ⟨d2, rfl, hd2⟩
  · -- no fraction
    have hmA : decMantissa ((a :: d1x) ++ (ex ++ (T :: r))) =
        some ((a :: d1x).length, digitsVal (a :: d1x), 1) := by
      refine decMantissa_nofr (a :: d1x) (ex ++ (T :: r)) (by simp) hd1 ?_
      rcases hex with rfl | ⟨c, s, d3, rfl, hc, _, _, _⟩
      · exact Or.inr ⟨T, r, rfl, hT, fun h => hTdot rfl rfl h⟩
      · exact Or.inr ⟨c, (s ++ d3) ++ (T :: r), by simp,
          (isExponentIntroducer_facts hc).1, (isExponentIntroducer_facts hc).2.1⟩
    have hmB : decMantissa ((a :: d1x) ++ ex) =
        some ((a :: d1x).length, digitsVal (a :: d1x), 1) := by
      refine decMantissa_nofr (a :: d1x) ex (by simp) hd1 ?_
      rcases hex with rfl | ⟨c, s, d3, rfl, hc, _, _, _⟩
      · exact Or.inl rfl
      · exact Or.inr ⟨c, s ++ d3, rfl,
          (isExponentIntroducer_facts hc).1, (isExponentIntroducer_facts hc).2.1⟩
    simp only [List.nil_append]
    simp only [decimalBody, hmA, hmB]
    rw [drop_append_len (a :: d1x) (ex ++ (T :: r)), drop_append_len (a :: d1x) ex]
    rcases hex with rfl | ⟨c, s, d3, rfl, hc, hs, hd3ne, hd3⟩
    · simp only [List.nil_append]
      rw [expPart_none _ (T :: r) (Or.inr ⟨T, r, rfl, decide_eq_false (hTe rfl)⟩)]
      rw [expPart_none _ [] (Or.inl rfl)]
      simp
    · have hintro : decide (c = 'e' ∨ c = 'E') = true :=
        (isExponentIntroducer_facts hc).2.2.2.2.2.2
      have hsL : s = [] ∨ s = ['+'] ∨ s = ['-'] := by
        rcases hs with rfl | ⟨c2, rfl, hpm⟩
        · exact Or.inl rfl
        · rcases isPlusMinus_cases hpm with rfl | rfl
          · exact Or.inr (Or.inl rfl)
          · exact Or.inr (Or.inr rfl)
      rw [expPart_structured _ c s d3 (T :: r) hintro hsL hd3ne hd3
        (Or.inr ⟨T, r, rfl, hT⟩)]
      rw [show (c :: (s ++ d3) : List Char) = (c :: (s ++ d3)) ++ [] from
        (List.append_nil _).symm]
      rw [expPart_structured _ c s d3 [] hintro hsL hd3ne hd3 (Or.inl rfl)]
      simp
  · -- fraction present
    have hstopZ : ∀ Z : List Char, Z = ex ++ (T :: r) ∨ Z = ex →
        Z = [] ∨ ∃ c r2, Z = c :: r2 ∧ isDigitChar c = false := by
      intro Z hZ
      rcases hex with rfl | ⟨c, s, d3, rfl, hc, _, _, _⟩
      · rcases hZ with rfl | rfl
        · exact Or.inr ⟨T, r, rfl, hT⟩
        · exact Or.inl rfl
      · rcases hZ with rfl | rfl
        · exact Or.inr ⟨c, (s ++ d3) ++ (T :: r), by simp,
            (isExponentIntroducer_facts hc).1⟩
        · exact Or.inr ⟨c, s ++ d3, rfl, (isExponentIntroducer_facts hc).1⟩
    have hmA : decMantissa (((a :: d1x) ++ ('.' :: d2)) ++ (ex ++ (T :: r))) =
        some ((a :: d1x).length + 1 + d2.length,
          digitsVal (a :: d1x) * 10 ^ d2.length + digitsVal d2, 10 ^ d2.length) :=
      decMantissa_fr (a :: d1x) d2 (ex ++ (T :: r)) (by simp) hd1 hd2
        (hstopZ _ (Or.inl rfl))
    have hmB : decMantissa (((a :: d1x) ++ ('.' :: d2)) ++ ex) =
        some ((a :: d1x).length + 1 + d2.length,
          digitsVal (a :: d1x) * 10 ^ d2.length + digitsVal d2, 10 ^ d2.length) :=
      decMantissa_fr (a :: d1x) d2 ex (by simp) hd1 hd2 (hstopZ _ (Or.inr rfl))
    have hLA : (a :: d1x) ++ ('.' :: d2 ++ (ex ++ (T :: r))) =
        ((a :: d1x) ++ ('.' :: d2)) ++ (ex ++ (T :: r)) := by simp
    have hLB : (a :: d1x) ++ ('.' :: d2 ++ ex) =
        ((a :: d1x) ++ ('.' :: d2)) ++ ex := by simp
    rw [hLA, hLB]
    simp only [decimalBody, hmA, hmB]
    have hidx : (a :: d1x).length + 1 + d2.length =
        ((a :: d1x) ++ ('.' :: d2)).length := by
      simp only [List.length_append, List.length_cons]
      omega
    rw [hidx, drop_append_len ((a :: d1x) ++ ('.' :: d2)) (ex ++ (T :: r)),
      drop_append_len ((a :: d1x) ++ ('.' :: d2)) ex]
    rcases hex with rfl | ⟨c, s, d3, rfl, hc, hs, hd3ne, hd3⟩
    · simp only [List.nil_append]
      rw [expPart_none _ (T :: r) (Or.inr ⟨T, r, rfl, decide_eq_false (hTe rfl)⟩)]
      rw [expPart_none _ [] (Or.inl rfl)]
      simp
    · have hintro : decide (c = 'e' ∨ c = 'E') = true :=
        (isExponentIntroducer_facts hc).2.2.2.2.2.2
      have hsL : s = [] ∨ s = ['+'] ∨ s = ['-'] := by
        rcases hs with rfl | ⟨c2, rfl, hpm⟩
        · exact Or.inl rfl
        · rcases isPlusMinus_cases hpm with rfl | rfl
          · exact Or.inr (Or.inl rfl)
          · exact Or.inr (Or.inr rfl)
      rw [expPart_structured _ c s d3 (T :: r) hintro hsL hd3ne hd3
        (Or.inr ⟨T, r, rfl, hT⟩)]
      rw [show (c :: (s ++ d3) : List Char) = (c :: (s ++ d3)) ++ [] from
        (List.append_nil _).symm]
      rw [expPart_structured _ c s d3 [] hintro hsL hd3ne hd3 (Or.inl rfl)]
      simp

theorem strtodRun_cons_digit (a : Char) (l2 : List Char)
    (ha : isDigitChar a = true) :
    strtodRun (a :: l2) =
      (if (strtodBody (a :: l2)).1 = 0 then (0, 0)
       else ((strtodBody (a :: l2)).1,
         mkRat (Int.ofNat (strtodBody (a :: l2)).2.1) (strtodBody (a :: l2)).2.2)) := by
  have haf := isDigitChar_facts ha
  have hws : (a :: l2).takeWhile wsC = [] :=
    List.takeWhile_cons_of_neg (by simp [haf.1])
  simp only [strtodRun, hws, List.length_nil, List.drop_zero]
  rcases hsb : strtodBody (a :: l2) with ⟨c0, n0, dd0⟩
  split
  · rename_i r heq
    injection heq with h1 _
    exact absurd h1 haf.2.1
  · rename_i r heq
    injection heq with h1 _
    exact absurd h1 haf.2.2.1
  · simp

theorem strtodRun_cons_minus (l2 : List Char) :
    strtodRun ('-' :: l2) =
      (if (strtodBody l2).1 = 0 then (0, 0)
       else (1 + (strtodBody l2).1,
         mkRat (-Int.ofNat (strtodBody l2).2.1) (strtodBody l2).2.2)) := by
  have hws : ('-' :: l2).takeWhile wsC = [] :=
    List.takeWhile_cons_of_neg (by decide)
  simp only [strtodRun, hws, List.length_nil, List.drop_zero]

theorem strtodRun_agree (sgn d1 fr ex : List Char) (T : Char) (r : List Char)
    (hsgn : sgn = [] ∨ sgn = ['-'])
    (hne : d1 ≠ []) (hd1 : ∀ c ∈ d1, isDigitChar c = true)
    (hfr : fr = [] ∨ ∃ d2, fr = '.' :: d2 ∧ ∀ c ∈ d2, isDigitChar c = true)
    (hex : ex = [] ∨ ∃ c s d3, ex = c :: (s ++ d3) ∧ isExponentIntroducer c = true ∧
      (s = [] ∨ ∃ c2, s = [c2] ∧ isPlusMinus c2 = true) ∧ d3 ≠ [] ∧
      (∀ x ∈ d3, isDigitChar x = true))
    (hT : isDigitChar T = false)
    (hTe : ex = [] → ¬ (T = 'e' ∨ T = 'E'))
    (hTdot : fr = [] → ex = [] → ¬ (T = '.'))
    (hhex : ¬ (d1 = ['0'] ∧ fr = [] ∧ ex = [] ∧ (T = 'x' ∨ T = 'X'))) :
    strtodRun ((sgn ++ (d1 ++ (fr ++ ex))) ++ (T :: r)) =
      strtodRun (sgn ++ (d1 ++ (fr ++ ex))) ∧
    0 < (strtodRun (sgn ++ (d1 ++ (fr ++ ex)))).1 := by
  obtain ⟨hbody, hpos⟩ :=
    strtodBody_agree d1 fr ex T r hne hd1 hfr hex hT hTe hTdot hhex
  obtain ⟨a, d1x, rfl⟩ : ∃ a d1x, d1 = a :: d1x := by
    cases d1 with
    | nil => exact absurd rfl hne
    | cons a d1x => exact ⟨a, d1x, rfl⟩
  have haD : isDigitChar a = true := hd1 a (List.mem_cons_self _ _)
  have hb2 : strtodBody (a :: (d1x ++ (fr ++ (ex ++ (T :: r))))) =
      strtodBody (a :: (d1x ++ (fr ++ ex))) := by simpa using hbody
  have hpos2 : 0 < (strtodBody (a :: (d1x ++ (fr ++ ex)))).1 := by simpa using hpos
  rcases hsgn with rfl | rfl
  · have e1 : (([] ++ ((a :: d1x) ++ (fr ++ ex))) ++ (T :: r) : List Char) =
        a :: (d1x ++ (fr ++ (ex ++ (T :: r)))) := by simp
    have e2 : ([] ++ ((a :: d1x) ++ (fr ++ ex)) : List Char) =
        a :: (d1x ++ (fr ++ ex)) := by simp
    rw [e1, e2, strtodRun_cons_digit a _ haD, strtodRun_cons_digit a _ haD, hb2]
    rw [if_neg (by omega)]
    exact ⟨rfl, hpos2⟩
  · have e1 : ((['-'] ++ ((a :: d1x) ++ (fr ++ ex))) ++ (T :: r) : List Char) =
        '-' :: (a :: (d1x ++ (fr ++ (ex ++ (T :: r))))) := by simp
    have e2 : (['-'] ++ ((a :: d1x) ++ (fr ++ ex)) : List Char) =
        '-' :: (a :: (d1x ++ (fr ++ ex))) := by simp
    rw [e1, e2, strtodRun_cons_minus, strtodRun_cons_minus, hb2]
    rw [if_neg (by omega)]
    exact ⟨rfl, by simp⟩

/-! ## Content structure of the number-scanning stages -/

theorem readFraction_structure (u u2 : Tokenizer) (g : Bool)
    (heq : readFraction u = (g, u2)) (hg : g = true)
    (hroom : u2.offset < u2.input.length) :
    u2.input = u.input ∧
    ∃ fr : List Char,
      u.input.drop u.offset = fr ++ u.input.drop u2.offset ∧
      u2.offset = u.offset + fr.length ∧
      (fr = [] ∨ ∃ d2, fr = '.' :: d2 ∧ ∀ c ∈ d2, isDigitChar c = true) ∧
      (fr = [] → ¬ (inputByte u u.offset = '.')) ∧
      (fr = [] ∨ isDigitChar (u.input.getD u2.offset 'A') = false) := by
  obtain ⟨inp, off, tok, err, vs, vl⟩ := u
  by_cases hc : endOfInput ⟨inp, off, tok, err, vs, vl⟩ = true ∨
      ¬ (inputByte ⟨inp, off, tok, err, vs, vl⟩ off = '.')
  · rw [readFraction, if_pos hc] at heq
    injection heq with h1 h2
    subst h2
    refine ⟨rfl, [], by simp, by simp, Or.inl rfl, ?_, Or.inl rfl⟩
    intro h3
    simp only at hroom
    rcases hc with hc | hc
    · rw [endOfInput_iff] at hc
      simp only at hc
      omega
    · exact fun hdot => hc hdot
  · push_neg at hc
    obtain ⟨hend, hdot⟩ := hc
    have hlt : off < inp.length := by
      have h4 := endOfInput_not_iff.mp hend
      simpa using h4
    rw [readFraction, if_neg (by push_neg; exact ⟨hend, hdot⟩)] at heq
    simp only [setToken] at heq
    have hrd := readDigits_spec 0 ⟨inp, off + 1, Token.Float, err, vs, vl⟩
      (by simp; omega)
    simp only at hrd
    rw [hrd] at heq
    injection heq with h1 h2
    subst h2
    dsimp only at hroom ⊢
    have hseg := digits_seg (l := inp) (i := off + 1) hroom
    have hbyte : inp[off] = '.' := by
      have h5 : inputByte ⟨inp, off, tok, err, vs, vl⟩ off = inp[off] :=
        inputByte_eq (by simpa using hlt)
      rw [h5] at hdot
      exact hdot
    refine ⟨rfl, '.' :: (inp.drop (off + 1)).takeWhile isDigitChar, ?_, ?_,
      Or.inr ⟨_, rfl, hseg.2.2.2.1⟩, by simp, Or.inr hseg.2.2.2.2⟩
    · rw [List.drop_eq_getElem_cons hlt, hbyte]
      rw [List.cons_append]
      rw [← hseg.2.1]
    · simp only [List.length_cons, hseg.2.2.1, hseg.1]
      omega

theorem readExponent_structure (u u2 : Tokenizer) (g : Bool)
    (heq : readExponent u = Except.ok (g, u2)) (hg : g = true)
    (hroom : u2.offset < u2.input.length) :
    u2.input = u.input ∧
    ∃ ex : List Char,
      u.input.drop u.offset = ex ++ u.input.drop u2.offset ∧
      u2.offset = u.offset + ex.length ∧
      (ex = [] → isExponentIntroducer (inputByte u u.offset) = false) ∧
      (ex = [] ∨ ∃ c s d3, ex = c :: (s ++ d3) ∧ isExponentIntroducer c = true ∧
        (s = [] ∨ ∃ c2, s = [c2] ∧ isPlusMinus c2 = true) ∧ d3 ≠ [] ∧
        (∀ x ∈ d3, isDigitChar x = true)) ∧
      (ex = [] ∨ isDigitChar (u.input.getD u2.offset 'A') = false) := by
  obtain ⟨inp, off, tok, err, vs, vl⟩ := u
  by_cases hc : endOfInput ⟨inp, off, tok, err, vs, vl⟩ = true ∨
      ¬ (isExponentIntroducer (inputByte ⟨inp, off, tok, err, vs, vl⟩ off) = true)
  · rw [readExponent, if_pos hc] at heq
    injection heq with h1
    injection h1 with h1 h2
    subst h2
    refine ⟨rfl, [], by simp, by simp, ?_, Or.inl rfl, Or.inl rfl⟩
    intro h3
    simp only at hroom
    rcases hc with hc | hc
    · rw [endOfInput_iff] at hc
      simp only at hc
      omega
    · simpa using hc
  · push_neg at hc
    obtain ⟨hend, hexp⟩ := hc
    have hlt : off < inp.length := by
      have h4 := endOfInput_not_iff.mp hend
      simpa using h4
    rw [readExponent, if_neg (by push_neg; exact ⟨hend, hexp⟩)] at heq
    simp only [setToken] at heq
    by_cases hguard : (off + 1 : Nat) < inp.length
    · rw [if_pos hguard] at heq
      have hbyte : inputByte ⟨inp, off, tok, err, vs, vl⟩ off = inp[off] :=
        inputByte_eq (by simpa using hlt)
      have hb1 : inputByte ⟨inp, off + 1, Token.Float, err, vs, vl⟩ (off + 1) =
          inp[off + 1] := inputByte_eq (by simpa using hguard)
      by_cases hpm : isPlusMinus
          (inputByte ⟨inp, off + 1, Token.Float, err, vs, vl⟩ (off + 1)) = true
      · rw [if_pos hpm] at heq
        have hrd := readDigits_spec 0 ⟨inp, off + 2, Token.Float, err, vs, vl⟩
          (by simp; omega)
        simp only at hrd
        rw [hrd] at heq
        injection heq with h1
        injection h1 with h1 h2
        subst h2
        dsimp only at hroom ⊢
        have hseg := digits_seg (l := inp) (i := off + 2) hroom
        have hd3ne : (inp.drop (off + 2)).takeWhile isDigitChar ≠ [] := by
          subst h1
          intro h0
          have h5 : digitRun inp (off + 2) = 0 := by
            rw [← hseg.2.2.1, h0]
            rfl
          simp only [h5] at hg
          exact absurd (of_decide_eq_true hg) (by omega)
        refine ⟨rfl, inp[off] :: ([inp[off + 1]] ++
          (inp.drop (off + 2)).takeWhile isDigitChar), ?_, ?_, ?_,
          Or.inr ⟨inp[off], [inp[off + 1]],
            (inp.drop (off + 2)).takeWhile isDigitChar, rfl, by rw [← hbyte]; exact hexp,
            Or.inr ⟨inp[off + 1], rfl, by rw [← hb1]; exact hpm⟩, hd3ne,
            hseg.2.2.2.1⟩, Or.inr hseg.2.2.2.2⟩
        · rw [List.drop_eq_getElem_cons hlt]
          rw [List.drop_eq_getElem_cons (show off + 1 < inp.length from hguard)]
          simp only [List.cons_append, List.singleton_append, List.nil_append]
          rw [← hseg.2.1]
        · simp only [List.length_cons, List.singleton_append, hseg.2.2.1, hseg.1]
          omega
        · intro h0
          exact absurd h0 (by simp)
      · rw [if_neg hpm] at heq
        have hrd := readDigits_spec 0 ⟨inp, off + 1, Token.Float, err, vs, vl⟩
          (by simp; omega)
        simp only at hrd
        rw [hrd] at heq
        injection heq with h1
        injection h1 with h1 h2
        subst h2
        dsimp only at hroom ⊢
        have hseg := digits_seg (l := inp) (i := off + 1) hroom
        have hd3ne : (inp.drop (off + 1)).takeWhile isDigitChar ≠ [] := by
          subst h1
          intro h0
          have h5 : digitRun inp (off + 1) = 0 := by
            rw [← hseg.2.2.1, h0]
            rfl
          simp only [h5] at hg
          exact absurd (of_decide_eq_true hg) (by omega)
        refine ⟨rfl, inp[off] :: ([] ++
          (inp.drop (off + 1)).takeWhile isDigitChar), ?_, ?_, ?_,
          Or.inr ⟨inp[off], [], (inp.drop (off + 1)).takeWhile isDigitChar, rfl,
            by rw [← hbyte]; exact hexp, Or.inl rfl, hd3ne, hseg.2.2.2.1⟩,
          Or.inr hseg.2.2.2.2⟩
        · rw [List.drop_eq_getElem_cons hlt]
          simp only [List.nil_append, List.cons_append]
          rw [← hseg.2.1]
        · simp only [List.length_cons, List.nil_append, hseg.2.2.1, hseg.1]
          omega
        · intro h0
          exact absurd h0 (by simp)
    · rw [if_neg hguard] at heq
      exact absurd heq (by simp)

/-- Full shape of a successful number scan that rests strictly inside
the buffer: the bytes from the token start to the cursor are an
optional minus sign, a nonempty digit run, an optional point-fraction
and an optional exponent, and the byte under the cursor can continue
none of them. -/
theorem readNumber_structure (u t2 : Tokenizer)
    (hlt : u.offset < u.input.length)
    (heq : readNumber (inputByte u u.offset) u.offset
      { u with offset := u.offset + 1 } = Except.ok t2)
    (htok : t2.token = Token.Integer ∨ t2.token = Token.Float)
    (hroom : t2.offset < t2.input.length) :
    t2.input = u.input ∧ t2.valueStart = u.offset ∧
    t2.valueStart + t2.valueLen = t2.offset ∧
    ∃ sgn d1 fr ex : List Char,
      u.input.drop u.offset = (sgn ++ (d1 ++ (fr ++ ex))) ++ u.input.drop t2.offset ∧
      t2.offset = u.offset + (sgn.length + (d1.length + (fr.length + ex.length))) ∧
      (sgn = [] ∨ sgn = ['-']) ∧
      d1 ≠ [] ∧ (∀ c ∈ d1, isDigitChar c = true) ∧
      (fr = [] ∨ ∃ d2, fr = '.' :: d2 ∧ ∀ c ∈ d2, isDigitChar c = true) ∧
      (ex = [] ∨ ∃ c s d3, ex = c :: (s ++ d3) ∧ isExponentIntroducer c = true ∧
        (s = [] ∨ ∃ c2, s = [c2] ∧ isPlusMinus c2 = true) ∧ d3 ≠ [] ∧
        (∀ x ∈ d3, isDigitChar x = true)) ∧
      isDigitChar (inputByte t2 t2.offset) = false ∧
      (ex = [] → isExponentIntroducer (inputByte t2 t2.offset) = false) ∧
      (fr = [] → ex = [] → ¬ (inputByte t2 t2.offset = '.')) := by
  obtain ⟨inp, off, tok, err, vs, vl⟩ := u
  dsimp only at hlt heq ⊢
  have hbeq : inputByte ⟨inp, off, tok, err, vs, vl⟩ off = inp[off] :=
    inputByte_eq (by simpa using hlt)
  rw [readNumber] at heq
  dsimp only at heq
  by_cases hbd : ¬ (isDigitChar (inputByte ⟨inp, off, tok, err, vs, vl⟩ off) = true) ∧
      ¬ (inputByte ⟨inp, off, tok, err, vs, vl⟩ off = '-')
  · rw [if_pos hbd] at heq
    injection heq with h
    rw [← h] at htok
    rcases htok with h2 | h2 <;> simp [setError] at h2
  · rw [if_neg hbd] at heq
    have hbOr : isDigitChar (inp[off]) = true ∨ inp[off] = '-' := by
      rw [← hbeq]
      push_neg at hbd
      by_cases hd : isDigitChar (inputByte ⟨inp, off, tok, err, vs, vl⟩ off) = true
      · exact Or.inl hd
      · exact Or.inr (hbd hd)
    have hrd := readDigits_spec
      (if isDigitChar (inputByte ⟨inp, off, tok, err, vs, vl⟩ off) = true then 1 else 0)
      (setToken Token.Integer ⟨inp, off + 1, tok, err, vs, vl⟩)
      (by simp [setToken]; omega)
    simp only [setToken] at hrd heq
    rw [hrd] at heq
    by_cases hg1 : 0 < (if isDigitChar (inputByte ⟨inp, off, tok, err, vs, vl⟩ off) = true then 1 else 0) + digitRun inp (off + 1)
    · rw [decide_eq_true hg1] at heq
      dsimp only at heq
      rcases hfr : readFraction
          ⟨inp, digitsStop inp (off + 1), Token.Integer, err, vs, vl⟩ with ⟨g2, u2⟩
      rw [hfr] at heq
      have hsf := digitsStop_facts (l := inp) (i := off + 1) (by omega)
      obtain ⟨g2f, u2f, heq2f, hi2f, hm2f, hl2f, hs2f, hvs2f, hvl2f, he2f, htok2f⟩ :=
        readFraction_facts ⟨inp, digitsStop inp (off + 1), Token.Integer, err, vs, vl⟩
          (by dsimp only; omega) (by dsimp only; omega)
      rw [hfr] at heq2f
      injection heq2f with hga hgb
      subst hga
      subst hgb
      dsimp only at hi2f hm2f hl2f hs2f
      by_cases hg2 : g2 = true
      · subst hg2
        dsimp only at heq
        rcases hex : readExponent u2 with te | p
        · rw [hex] at heq
          exact absurd heq (by simp)
        · obtain ⟨g3, u3⟩ := p
          rw [hex] at heq
          obtain ⟨g3f, u3f, heq3f, hi3f, hm3f, hl3f, hvs3f, hvl3f, he3f, htok3f⟩ :=
            readExponent_facts u2 (by rw [hi2f]; exact hl2f) (by rw [hi2f]; exact hs2f)
          rw [hex] at heq3f
          injection heq3f with hga2
          injection hga2 with hga2 hgb2
          subst hga2
          subst hgb2
          by_cases hg3 : g3 = true
          · subst hg3
            dsimp only at heq
            injection heq with h
            subst h
            dsimp only at hroom htok ⊢
            rw [hi2f] at hi3f
            rw [hi3f] at hroom
            -- dissect the three stages
            have hexs := readExponent_structure u2 u3 true hex rfl
              (by rw [hi3f]; exact hroom)
            obtain ⟨hi3, ex, hdrop3, hoff3, hnoex, hexshape, hbound3⟩ := hexs
            have hroom2 : u2.offset < u2.input.length := by
              rw [hi2f]
              have h9 : u2.offset ≤ u3.offset := hm3f
              omega
            have hfrs := readFraction_structure
              ⟨inp, digitsStop inp (off + 1), Token.Integer, err, vs, vl⟩ u2 true hfr rfl
              hroom2
            obtain ⟨hi2, fr, hdrop2, hoff2, hfrshape, hnofr, hbound2⟩ := hfrs
            dsimp only at hi2 hdrop2 hoff2 hnofr hbound2
            have hstop1lt : digitsStop inp (off + 1) < inp.length := by
              rw [hi2f] at hroom2
              omega
            have hseg := digits_seg hstop1lt
            rw [hi2f] at hdrop3 hbound3
            have hTb : inputByte { u3 with valueStart := off, valueLen := u3.offset - off } u3.offset = inp.getD u3.offset 'A' := by
              show u3.input.getD u3.offset 'A' = inp.getD u3.offset 'A'
              rw [hi3f]
            -- the byte under the final cursor is not a digit
            have hTdig : isDigitChar (inp.getD u3.offset 'A') = false := by
              rcases hbound3 with hex0 | hb3
              · rcases hbound2 with hfr0 | hb2
                · have h9 : u3.offset = digitsStop inp (off + 1) := by
                    rw [hoff3, hoff2, hex0, hfr0]
                    simp
                  rw [h9]
                  exact hseg.2.2.2.2
                · have h9 : u3.offset = u2.offset := by
                    rw [hoff3, hex0]
                    rfl
                  rw [h9]
                  exact hb2
              · exact hb3
            refine ⟨by rw [hi3f], rfl, ?_, ?_⟩
            · show off + (u3.offset - off) = u3.offset
              have h9 : off + 1 ≤ digitsStop inp (off + 1) := by
                rw [hseg.1]
                omega
              have h10 : u2.offset = digitsStop inp (off + 1) + fr.length := hoff2
              omega
            -- choose sign and integer-digit lists
            rcases hbOr with hdig | hminus
            · refine ⟨[], inp[off] :: (inp.drop (off + 1)).takeWhile isDigitChar,
                fr, ex, ?_, ?_, Or.inl rfl, by simp, ?_, hfrshape, hexshape, ?_, ?_, ?_⟩
              · conv_lhs => rw [List.drop_eq_getElem_cons hlt, hseg.2.1, hdrop2, hdrop3]
                simp only [List.append_assoc, List.cons_append, List.nil_append]
              · simp only [List.length_nil, List.length_cons, hseg.2.2.1]
                rw [hoff3, hoff2, hseg.1]
                omega
              · intro c hc
                rcases List.mem_cons.mp hc with rfl | hc2
                · exact hdig
                · exact mem_takeWhile _ c hc2
              · rw [hTb]
                exact hTdig
              · intro hex0
                rw [hTb]
                have h9 : u3.offset = u2.offset := by
                  rw [hoff3, hex0]
                  rfl
                have h10 := hnoex hex0
                rw [h9]
                have h11 : inputByte u2 u2.offset = u2.input.getD u2.offset 'A' := rfl
                rw [h11, hi2f] at h10
                exact h10
              · intro hfr0 hex0
                rw [hTb]
                have h9 : u3.offset = digitsStop inp (off + 1) := by
                  rw [hoff3, hoff2, hex0, hfr0]
                  simp
                rw [h9]
                have h10 := hnofr hfr0
                have h11 : inputByte
                    ⟨inp, digitsStop inp (off + 1), Token.Integer, err, vs, vl⟩
                    (digitsStop inp (off + 1)) =
                    inp.getD (digitsStop inp (off + 1)) 'A' := rfl
                rw [h11] at h10
                exact h10
            · have hnd : ¬ (isDigitChar (inputByte ⟨inp, off, tok, err, vs, vl⟩ off)
                  = true) := by
                rw [hbeq, hminus]
                decide
              have hrun1 : 0 < digitRun inp (off + 1) := by
                rw [if_neg hnd] at hg1
                omega
              have htw1ne : (inp.drop (off + 1)).takeWhile isDigitChar ≠ [] := by
                intro h0
                have h9 : digitRun inp (off + 1) = 0 := by
                  rw [← hseg.2.2.1, h0]
                  rfl
                omega
              refine ⟨['-'], (inp.drop (off + 1)).takeWhile isDigitChar,
                fr, ex, ?_, ?_, Or.inr rfl, htw1ne, ?_, hfrshape, hexshape, ?_, ?_, ?_⟩
              · conv_lhs => rw [List.drop_eq_getElem_cons hlt, hminus, hseg.2.1, hdrop2, hdrop3]
                simp only [List.append_assoc, List.cons_append, List.singleton_append,
                  List.nil_append]
              · simp only [List.length_singleton, List.length_cons, List.length_nil,
                  hseg.2.2.1]
                rw [hoff3, hoff2, hseg.1]
                omega
              · intro c hc
                exact mem_takeWhile _ c hc
              · rw [hTb]
                exact hTdig
              · intro hex0
                rw [hTb]
                have h9 : u3.offset = u2.offset := by
                  rw [hoff3, hex0]
                  rfl
                have h10 := hnoex hex0
                rw [h9]
                have h11 : inputByte u2 u2.offset = u2.input.getD u2.offset 'A' := rfl
                rw [h11, hi2f] at h10
                exact h10
              · intro hfr0 hex0
                rw [hTb]
                have h9 : u3.offset = digitsStop inp (off + 1) := by
                  rw [hoff3, hoff2, hex0, hfr0]
                  simp
                rw [h9]
                have h10 := hnofr hfr0
                have h11 : inputByte
                    ⟨inp, digitsStop inp (off + 1), Token.Integer, err, vs, vl⟩
                    (digitsStop inp (off + 1)) =
                    inp.getD (digitsStop inp (off + 1)) 'A' := rfl
                rw [h11] at h10
                exact h10
          · have hg3f : g3 = false := by simpa using hg3
            subst hg3f
            dsimp only at heq
            injection heq with h
            rw [← h] at htok
            rcases htok with h2 | h2 <;> simp [setError] at h2
      · have hg2f : g2 = false := by simpa using hg2
        subst hg2f
        dsimp only at heq
        injection heq with h
        rw [← h] at htok
        rcases htok with h2 | h2 <;> simp [setError] at h2
    · rw [decide_eq_false (by omega)] at heq
      dsimp only at heq
      injection heq with h
      rw [← h] at htok
      rcases htok with h2 | h2 <;> simp [setError] at h2

theorem token_clash {t2 : Tokenizer} {k : Token}
    (h1 : t2.token = k) (h2 : t2.token = Token.Integer ∨ t2.token = Token.Float)
    (hne1 : ¬ (k = Token.Integer)) (hne2 : ¬ (k = Token.Float)) : False := by
  rcases h2 with h2 | h2 <;> rw [h2] at h1
  · exact hne1 h1.symm
  · exact hne2 h1.symm

/-- Provenance of a numeric token: the only advance that can deliver
Integer or Float is the readNumber path, entered right after the skip
of leading whitespace at some in-bounds position. -/
theorem nextGo_number_src :
    ∀ (fuel : Nat) (t0 t2 : Tokenizer), t0.offset ≤ t0.input.length →
      availableInput t0 ≤ fuel →
      nextGo fuel t0 = Except.ok t2 →
      (t2.token = Token.Integer ∨ t2.token = Token.Float) →
      ∃ u : Tokenizer, u.input = t0.input ∧ t0.offset ≤ u.offset ∧
        u.offset < u.input.length ∧
        readNumber (inputByte u u.offset) u.offset
          { u with offset := u.offset + 1 } = Except.ok t2 := by
  intro fuel
  induction fuel with
  | zero =>
    intro t0 t2 hle hfuel heq htok
    have hge : t0.input.length ≤ t0.offset := by
      simp [availableInput] at hfuel
      omega
    have hwr : wsRun t0.input t0.offset = 0 := runLen_of_ge hge
    rw [nextGo_zero_eq, skipWS_spec] at heq
    rw [if_pos (by
      rw [endOfInput_iff]
      show t0.input.length ≤ t0.offset + wsRun t0.input t0.offset
      omega)] at heq
    injection heq with h
    exact absurd (token_clash (k := Token.End) (by rw [← h]; rfl) htok
      (by decide) (by decide)) (fun hf => hf)
  | succ fuel ih =>
    intro t0 t2 hle hfuel heq htok
    have hKge : t0.offset ≤ t0.offset + wsRun t0.input t0.offset := Nat.le_add_right _ _
    have hKle : t0.offset + wsRun t0.input t0.offset ≤ t0.input.length := by
      rcases Nat.lt_or_ge t0.offset t0.input.length with h | h
      · exact runLen_add_le (Nat.le_of_lt h)
      · have h0 : wsRun t0.input t0.offset = 0 := runLen_of_ge h
        omega
    rw [nextGo_succ_eq, skipWS_spec] at heq
    set K := t0.offset + wsRun t0.input t0.offset with hKdef
    by_cases hend : endOfInput { t0 with offset := K } = true
    · rw [if_pos hend] at heq
      injection heq with h
      exact absurd (token_clash (k := Token.End) (by rw [← h]; rfl) htok
        (by decide) (by decide)) (fun hf => hf)
    · rw [if_neg hend] at heq
      have hKlt : K < t0.input.length := by
        have h0 := endOfInput_not_iff.mp hend
        simpa using h0
      set b1 := inputByte { t0 with offset := K } K with hb1def
      by_cases hq1 : b1 = Char.ofNat 123
      · rw [if_pos hq1] at heq
        injection heq with h
        exact absurd (token_clash (k := Token.ObjectStart) (by rw [← h]; rfl) htok
          (by decide) (by decide)) (fun hf => hf)
      · rw [if_neg hq1] at heq
        by_cases hq2 : b1 = Char.ofNat 125
        · rw [if_pos hq2] at heq
          injection heq with h
          obtain ⟨_, _, _, _, htokE⟩ := readEndBracket_facts Token.ObjectEnd
            { t0 with offset := K + 1 }
          rw [h] at htokE
          rcases htokE with he | he
          · exact absurd (token_clash he htok (by decide) (by decide)) (fun hf => hf)
          · exact absurd (token_clash he htok (by decide) (by decide)) (fun hf => hf)
        · rw [if_neg hq2] at heq
          by_cases hq3 : b1 = '['
          · rw [if_pos hq3] at heq
            injection heq with h
            exact absurd (token_clash (k := Token.ArrayStart) (by rw [← h]; rfl) htok
              (by decide) (by decide)) (fun hf => hf)
          · rw [if_neg hq3] at heq
            by_cases hq4 : b1 = ']'
            · rw [if_pos hq4] at heq
              injection heq with h
              obtain ⟨_, _, _, _, htokE⟩ := readEndBracket_facts Token.ArrayEnd
                { t0 with offset := K + 1 }
              rw [h] at htokE
              rcases htokE with he | he
              · exact absurd (token_clash he htok (by decide) (by decide)) (fun hf => hf)
              · exact absurd (token_clash he htok (by decide) (by decide)) (fun hf => hf)
            · rw [if_neg hq4] at heq
              by_cases hq5 : b1 = 'n'
              · rw [if_pos hq5] at heq
                injection heq with h
                obtain ⟨_, _, _, _, _, htokE⟩ := readAtom_facts ['u', 'l', 'l']
                  Token.Null { t0 with offset := K + 1 }
                  (by show K + 1 ≤ t0.input.length; omega)
                rw [h] at htokE
                rcases htokE with he | he
                · exact absurd (token_clash he htok (by decide) (by decide)) (fun hf => hf)
                · exact absurd (token_clash he htok (by decide) (by decide)) (fun hf => hf)
              · rw [if_neg hq5] at heq
                by_cases hq6 : b1 = 't'
                · rw [if_pos hq6] at heq
                  injection heq with h
                  obtain ⟨_, _, _, _, _, htokE⟩ := readAtom_facts ['r', 'u', 'e']
                    Token.True { t0 with offset := K + 1 }
                    (by show K + 1 ≤ t0.input.length; omega)
                  rw [h] at htokE
                  rcases htokE with he | he
                  · exact absurd (token_clash he htok (by decide) (by decide)) (fun hf => hf)
                  · exact absurd (token_clash he htok (by decide) (by decide)) (fun hf => hf)
                · rw [if_neg hq6] at heq
                  by_cases hq7 : b1 = 'f'
                  · rw [if_pos hq7] at heq
                    injection heq with h
                    obtain ⟨_, _, _, _, _, htokE⟩ := readAtom_facts ['a', 'l', 's', 'e']
                      Token.False { t0 with offset := K + 1 }
                      (by show K + 1 ≤ t0.input.length; omega)
                    rw [h] at htokE
                    rcases htokE with he | he
                    · exact absurd (token_clash he htok (by decide) (by decide)) (fun hf => hf)
                    · exact absurd (token_clash he htok (by decide) (by decide)) (fun hf => hf)
                  · rw [if_neg hq7] at heq
                    by_cases hq8 : b1 = Char.ofNat 0
                    · rw [if_pos hq8] at heq
                      injection heq with h
                      exact absurd (token_clash (k := Token.Error) (by rw [← h]; rfl) htok
                        (by decide) (by decide)) (fun hf => hf)
                    · rw [if_neg hq8] at heq
                      by_cases hq9 : b1 = '"'
                      · rw [if_pos hq9] at heq
                        injection heq with h
                        obtain ⟨_, _, _, _, htokE⟩ := readString_facts b1 K
                          { t0 with offset := K + 1 }
                          (by show K ≤ K + 1; omega)
                          (by show K + 1 ≤ t0.input.length; omega)
                        rw [h] at htokE
                        rcases htokE with he | he | he
                        · exact absurd (token_clash he htok (by decide) (by decide))
                            (fun hf => hf)
                        · exact absurd (token_clash he htok (by decide) (by decide))
                            (fun hf => hf)
                        · exact absurd (token_clash he htok (by decide) (by decide))
                            (fun hf => hf)
                      · rw [if_neg hq9] at heq
                        by_cases hq10 : b1 = ','
                        · rw [if_pos hq10] at heq
                          by_cases hq11 : ({ t0 with offset := K + 1 } :
                              Tokenizer).token = Token.ObjectStart ∨
                              ({ t0 with offset := K + 1 } :
                                Tokenizer).token = Token.ArrayStart ∨
                              ({ t0 with offset := K + 1 } :
                                Tokenizer).token = Token.Comma
                          · rw [if_pos hq11] at heq
                            injection heq with h
                            exact absurd (token_clash (k := Token.Error) (by rw [← h]; rfl)
                              htok (by decide) (by decide)) (fun hf => hf)
                          · rw [if_neg hq11] at heq
                            obtain ⟨u, hui, huo, hult, hurn⟩ :=
                              ih (setToken Token.Comma { t0 with offset := K + 1 })
                                t2
                                (by show K + 1 ≤ t0.input.length; omega)
                                (by
                                  show t0.input.length - (K + 1) ≤ fuel
                                  have h0 : availableInput t0 ≤ fuel + 1 := hfuel
                                  simp only [availableInput] at h0
                                  omega)
                                heq htok
                            refine ⟨u, hui, ?_, hult, hurn⟩
                            have h1 : K + 1 ≤ u.offset := huo
                            omega
                        · rw [if_neg hq10] at heq
                          exact ⟨{ t0 with offset := K }, rfl,
                            (show t0.offset ≤ K from hKge), by simpa using hKlt, heq⟩

/-! ## The amended conversion-agreement claim -/

/-- C10 (amended): for every Integer or Float token whose cursor rests
strictly inside the buffer — the configuration in which intValue and
floatValue parse in place rather than from a bounded copy — the
in-place strtoll value agrees with the bounded-copy stoll value, and
the in-place strtod value agrees with the bounded-copy stod value
unless the slice is a bare zero whose next buffer byte is x or X (the
hexadecimal pickup of strtod). -/
theorem C10_branches_agree (t t2 : Tokenizer)
    (hle : t.offset ≤ t.input.length)
    (hnext : next t = Except.ok t2)
    (htok : t2.token = Token.Integer ∨ t2.token = Token.Float)
    (hroom : t2.offset < t2.input.length) :
    intValue t2 = stollOpt (sliceOf t2) ∧
    (hexPickupRisk t2 = false → floatValue t2 = stodOpt (sliceOf t2)) := by
  rw [next] at hnext
  obtain ⟨u, _, _, hult, hrn⟩ := nextGo_number_src (availableInput t) t t2 hle
    (Nat.le_refl _) hnext htok
  obtain ⟨hi, hvs, hsum, sgn, d1, fr, ex, hdrop, hoffeq, hsgn, hd1ne, hd1,
    hfrsh, hexsh, hTdig0, hTe0, hTdot0⟩ :=
    readNumber_structure u t2 hult hrn htok hroom
  have hroomu : t2.offset < u.input.length := by rw [← hi]; exact hroom
  have hdropT : u.input.drop t2.offset =
      u.input[t2.offset] :: u.input.drop (t2.offset + 1) :=
    List.drop_eq_getElem_cons hroomu
  have hTb : inputByte t2 t2.offset = u.input[t2.offset] := by
    show t2.input.getD t2.offset 'A' = u.input[t2.offset]
    rw [hi]
    exact getD_eq_getElem hroomu
  set T := u.input[t2.offset] with hTdef
  have hTd : isDigitChar T = false := by rw [← hTb]; exact hTdig0
  have hAlen : (sgn ++ (d1 ++ (fr ++ ex))).length =
      sgn.length + (d1.length + (fr.length + ex.length)) := by
    simp [List.length_append]
  have hvl : t2.valueLen = (sgn ++ (d1 ++ (fr ++ ex))).length := by
    rw [hAlen]
    omega
  have hslice : sliceOf t2 = sgn ++ (d1 ++ (fr ++ ex)) := by
    show (t2.input.drop t2.valueStart).take t2.valueLen = _
    rw [hi, hvs, hdrop, hvl, take_append_len]
  have hdropfull : t2.input.drop t2.valueStart =
      (sgn ++ (d1 ++ (fr ++ ex))) ++ (T :: u.input.drop (t2.offset + 1)) := by
    rw [hi, hvs, hdrop, hdropT]
  have hhv2 : ¬ (¬ (hasValue t2 = true)) := by
    intro hf
    rcases htok with h | h <;> exact hf (by simp [hasValue, h])
  have havail : ¬ (availableInput t2 = 0) := by
    simp only [availableInput]
    omega
  have hTeL : ex = [] → ¬ (T = 'e' ∨ T = 'E') := by
    intro hex0 hor
    have h0 : isExponentIntroducer (inputByte t2 t2.offset) = false := hTe0 hex0
    rw [hTb] at h0
    have h1 : ¬ (T = 'E' ∨ T = 'e') := of_decide_eq_false h0
    rcases hor with h2 | h2
    · exact h1 (Or.inr h2)
    · exact h1 (Or.inl h2)
  have hTdotL : fr = [] → ex = [] → ¬ (T = '.') := by
    intro h1 h2 h3
    have h0 := hTdot0 h1 h2
    rw [hTb] at h0
    exact h0 h3
  have hstopA : fr ++ (ex ++ (T :: u.input.drop (t2.offset + 1))) = [] ∨
      ∃ c r2, fr ++ (ex ++ (T :: u.input.drop (t2.offset + 1))) = c :: r2 ∧
        isDigitChar c = false :=
    numRest_stop fr ex _ hfrsh hexsh (Or.inr ⟨T, _, rfl, hTd⟩)
  have hstopB : fr ++ ex = [] ∨ ∃ c r2, fr ++ ex = c :: r2 ∧
      isDigitChar c = false := by
    have h0 := numRest_stop fr ex [] hfrsh hexsh (Or.inl rfl)
    simpa using h0
  have hlen1 : ¬ (d1.length = 0) := by simpa using hd1ne
  constructor
  · have hsA := strtollRun_structured d1
      (fr ++ (ex ++ (T :: u.input.drop (t2.offset + 1)))) hd1ne hd1 hstopA
    have hsB := strtollRun_structured d1 (fr ++ ex) hd1ne hd1 hstopB
    simp only [intValue]
    rw [if_neg hhv2, if_neg havail, hdropfull, hslice]
    rcases hsgn with rfl | rfl
    · have e1 : (([] ++ (d1 ++ (fr ++ ex))) ++
          (T :: u.input.drop (t2.offset + 1)) : List Char) =
          d1 ++ (fr ++ (ex ++ (T :: u.input.drop (t2.offset + 1)))) := by
        simp [List.append_assoc]
      have e2 : ([] ++ (d1 ++ (fr ++ ex)) : List Char) = d1 ++ (fr ++ ex) := by simp
      rw [e1, e2, hsA.1]
      simp only [stollOpt]
      rw [hsB.1]
      simp [hlen1]
    · have e1 : ((['-'] ++ (d1 ++ (fr ++ ex))) ++
          (T :: u.input.drop (t2.offset + 1)) : List Char) =
          '-' :: (d1 ++ (fr ++ (ex ++ (T :: u.input.drop (t2.offset + 1))))) := by
        simp [List.append_assoc]
      have e2 : (['-'] ++ (d1 ++ (fr ++ ex)) : List Char) =
          '-' :: (d1 ++ (fr ++ ex)) := by simp
      rw [e1, e2, hsA.2]
      simp only [stollOpt]
      rw [hsB.2]
      simp
  · intro hrisk
    have hhexL : ¬ (d1 = ['0'] ∧ fr = [] ∧ ex = [] ∧ (T = 'x' ∨ T = 'X')) := by
      rintro ⟨h1, h2, h3, h4⟩
      have h0 : ¬ ((sliceOf t2 = ['0'] ∨ sliceOf t2 = ['-', '0']) ∧
          (inputByte t2 t2.offset = 'x' ∨ inputByte t2 t2.offset = 'X')) :=
        of_decide_eq_false hrisk
      apply h0
      constructor
      · rw [hslice, h1, h2, h3]
        rcases hsgn with rfl | rfl
        · left
          rfl
        · right
          rfl
      · rw [hTb]
        exact h4
    obtain ⟨hdA, hdpos⟩ := strtodRun_agree sgn d1 fr ex T
      (u.input.drop (t2.offset + 1)) hsgn hd1ne hd1 hfrsh hexsh hTd hTeL hTdotL hhexL
    simp only [floatValue]
    rw [if_neg hhv2, if_neg havail, hdropfull, hdA, hslice]
    simp only [stodOpt]
    rw [if_neg (by omega)]

/-- Witness for C10_branches_agree: the buffer 1,2 yields the Integer
token with slice 1 at cursor 1, with two bytes of input left, so both
branch agreements are exercised on a concrete state. -/
theorem C10_branches_agree_witness :
    intValue ⟨("1,2".toList), 1, Token.Integer, ErrorCode.UnspecifiedError, 0, 1⟩ =
      stollOpt (sliceOf
        ⟨("1,2".toList), 1, Token.Integer, ErrorCode.UnspecifiedError, 0, 1⟩) ∧
    (hexPickupRisk
        ⟨("1,2".toList), 1, Token.Integer, ErrorCode.UnspecifiedError, 0, 1⟩ = false →
      floatValue ⟨("1,2".toList), 1, Token.Integer, ErrorCode.UnspecifiedError, 0, 1⟩ =
        stodOpt (sliceOf
          ⟨("1,2".toList), 1, Token.Integer, ErrorCode.UnspecifiedError, 0, 1⟩)) :=
  C10_branches_agree (mkT ("1,2".toList))
    ⟨("1,2".toList), 1, Token.Integer, ErrorCode.UnspecifiedError, 0, 1⟩
    (by decide) rfl (by decide) (by decide)

/-- C2 (amended): an advance keeps the cursor inside the buffer and
never moves it backwards, and the recorded value slice is a valid
sub-range of the buffer.  For an Integer or Float token the slice is
exactly the bytes the number scan consumed: it ends exactly at the
cursor, it starts at the dispatch point of readNumber (the first
significant byte, a digit or a minus sign, at or after the cursor the
advance started from), and — whenever the cursor rests strictly inside
the buffer, so every rewind of readDigits happened — its content is
precisely one numeric literal: optional sign, nonempty digit run,
optional point-fraction, optional exponent, with a byte under the
cursor that can continue none of them. -/
theorem C2_cursor_bounds (t t2 : Tokenizer)
    (hle : t.offset ≤ t.input.length)
    (hwf : t.valueStart + t.valueLen ≤ t.input.length)
    (heq : next t = Except.ok t2) :
    t2.input = t.input ∧ t.offset ≤ t2.offset ∧ t2.offset ≤ t.input.length ∧
    t2.valueStart + t2.valueLen ≤ t.input.length ∧
    ((t2.token = Token.Integer ∨ t2.token = Token.Float) →
      t2.valueStart + t2.valueLen = t2.offset ∧
      t.offset ≤ t2.valueStart ∧
      (isDigitChar (inputByte t2 (t2.valueStart)) = true ∨
        inputByte t2 (t2.valueStart) = '-') ∧
      (∃ u : Tokenizer, u.input = t.input ∧ t.offset ≤ u.offset ∧
        u.offset < u.input.length ∧ t2.valueStart = u.offset ∧
        readNumber (inputByte u u.offset) u.offset
          { u with offset := u.offset + 1 } = Except.ok t2) ∧
      (t2.offset < t2.input.length →
        ∃ sgn d1 fr ex : List Char,
          sliceOf t2 = sgn ++ (d1 ++ (fr ++ ex)) ∧
          (sgn = [] ∨ sgn = ['-']) ∧
          d1 ≠ [] ∧ (∀ c ∈ d1, isDigitChar c = true) ∧
          (fr = [] ∨ ∃ d2, fr = '.' :: d2 ∧ ∀ c ∈ d2, isDigitChar c = true) ∧
          (ex = [] ∨ ∃ c s d3, ex = c :: (s ++ d3) ∧ isExponentIntroducer c = true ∧
            (s = [] ∨ ∃ c2, s = [c2] ∧ isPlusMinus c2 = true) ∧ d3 ≠ [] ∧
            (∀ x ∈ d3, isDigitChar x = true)) ∧
          isDigitChar (inputByte t2 (t2.offset)) = false)) := by
  have heq0 := heq
  obtain ⟨t3, heq3, hi, hmo, hlo, hv, hnum⟩ := next_facts t hle
  rw [heq3] at heq0
  injection heq0 with h
  subst h
  refine ⟨hi, hmo, hlo, ?_, ?_⟩
  · rcases hv with ⟨ha, hb⟩ | hb
    · omega
    · omega
  · intro htok
    rw [next] at heq
    obtain ⟨u, hui, huo, hult, hrn⟩ :=
      nextGo_number_src (availableInput t) t t3 hle (Nat.le_refl _) heq htok
    obtain ⟨t2f, heqf, hif, hmf, hlf, hcase⟩ :=
      readNumber_facts (inputByte u u.offset) u.offset { u with offset := u.offset + 1 }
        (by show u.offset ≤ u.offset + 1; omega)
        (by show u.offset + 1 ≤ u.input.length; omega)
    rw [hrn] at heqf
    injection heqf with hf
    subst hf
    rcases hcase with ⟨herr, _, _⟩ | ⟨_, hvsf, hsumf⟩
    · exact absurd (token_clash herr htok (by decide) (by decide)) (fun h2 => h2)
    have hif2 : t3.input = u.input := hif
    have hfirst : isDigitChar (inputByte t3 t3.valueStart) = true ∨
        inputByte t3 t3.valueStart = '-' := by
      have hbb : inputByte t3 t3.valueStart = inputByte u u.offset := by
        show t3.input.getD t3.valueStart 'A' = u.input.getD u.offset 'A'
        rw [hif2, hvsf]
      rw [hbb]
      by_cases hbd : ¬ (isDigitChar (inputByte u u.offset) = true) ∧
          ¬ (inputByte u u.offset = '-')
      · exfalso
        rw [readNumber] at hrn
        dsimp only at hrn
        rw [if_pos hbd] at hrn
        injection hrn with h2
        exact token_clash (k := Token.Error) (by rw [← h2]; rfl) htok
          (by decide) (by decide)
      · push_neg at hbd
        by_cases hd : isDigitChar (inputByte u u.offset) = true
        · exact Or.inl hd
        · exact Or.inr (hbd hd)
    refine ⟨hsumf, ?_, hfirst, ⟨u, hui, huo, hult, hvsf, hrn⟩, ?_⟩
    · rw [hvsf]
      exact huo
    · intro hroom
      obtain ⟨hi2, hvs2, hsum2, sgn, d1, fr, ex, hdrop, hoffeq, hsgn, hd1ne, hd1m,
        hfrsh, hexsh, hTdig, _, _⟩ := readNumber_structure u t3 hult hrn htok hroom
      have hAlen : (sgn ++ (d1 ++ (fr ++ ex))).length =
          sgn.length + (d1.length + (fr.length + ex.length)) := by
        simp [List.length_append]
      have hvl : t3.valueLen = (sgn ++ (d1 ++ (fr ++ ex))).length := by
        rw [hAlen]
        omega
      have hslice : sliceOf t3 = sgn ++ (d1 ++ (fr ++ ex)) := by
        show (t3.input.drop t3.valueStart).take t3.valueLen = _
        rw [hi2, hvs2, hdrop, hvl, take_append_len]
      exact ⟨sgn, d1, fr, ex, hslice, hsgn, hd1ne, hd1m, hfrsh, hexsh, hTdig⟩

/-- Witness for C2_cursor_bounds at the one-digit buffer: the advance
yields the Integer token with slice 1 and the cursor at the buffer
end. -/
theorem C2_cursor_bounds_witness :
    (stepTok (mkT ("1".toList))).input = (mkT ("1".toList)).input ∧ (mkT ("1".toList)).offset ≤ (stepTok (mkT ("1".toList))).offset ∧ (stepTok (mkT ("1".toList))).offset ≤ (mkT ("1".toList)).input.length ∧
    (stepTok (mkT ("1".toList))).valueStart + (stepTok (mkT ("1".toList))).valueLen ≤ (mkT ("1".toList)).input.length ∧
    (((stepTok (mkT ("1".toList))).token = Token.Integer ∨ (stepTok (mkT ("1".toList))).token = Token.Float) →
      (stepTok (mkT ("1".toList))).valueStart + (stepTok (mkT ("1".toList))).valueLen = (stepTok (mkT ("1".toList))).offset ∧
      (mkT ("1".toList)).offset ≤ (stepTok (mkT ("1".toList))).valueStart ∧
      (isDigitChar (inputByte (stepTok (mkT ("1".toList))) ((stepTok (mkT ("1".toList))).valueStart)) = true ∨
        inputByte (stepTok (mkT ("1".toList))) ((stepTok (mkT ("1".toList))).valueStart) = '-') ∧
      (∃ u : Tokenizer, u.input = (mkT ("1".toList)).input ∧ (mkT ("1".toList)).offset ≤ u.offset ∧
        u.offset < u.input.length ∧ (stepTok (mkT ("1".toList))).valueStart = u.offset ∧
        readNumber (inputByte u u.offset) u.offset
          { u with offset := u.offset + 1 } = Except.ok (stepTok (mkT ("1".toList)))) ∧
      ((stepTok (mkT ("1".toList))).offset < (stepTok (mkT ("1".toList))).input.length →
        ∃ sgn d1 fr ex : List Char,
          sliceOf (stepTok (mkT ("1".toList))) = sgn ++ (d1 ++ (fr ++ ex)) ∧
          (sgn = [] ∨ sgn = ['-']) ∧
          d1 ≠ [] ∧ (∀ c ∈ d1, isDigitChar c = true) ∧
          (fr = [] ∨ ∃ d2, fr = '.' :: d2 ∧ ∀ c ∈ d2, isDigitChar c = true) ∧
          (ex = [] ∨ ∃ c s d3, ex = c :: (s ++ d3) ∧ isExponentIntroducer c = true ∧
            (s = [] ∨ ∃ c2, s = [c2] ∧ isPlusMinus c2 = true) ∧ d3 ≠ [] ∧
            (∀ x ∈ d3, isDigitChar x = true)) ∧
          isDigitChar (inputByte (stepTok (mkT ("1".toList))) ((stepTok (mkT ("1".toList))).offset)) = false)) :=
  C2_cursor_bounds (mkT ("1".toList)) (stepTok (mkT ("1".toList)))
    (by decide) (by decide) rfl

/-! ## Concrete scans settling the example-driven claims -/

/-- C1: token-by-token scan of the two driving examples.  The array
input scans exactly as the claim states: ArrayStart, two String tokens
with their quotes included, ArrayEnd, and no FieldName.  The object
input does not: the third advance returns Integer whose value slice is
the two bytes 1 and the closing brace (readDigits consumes the
terminating byte without rewinding when it is the last buffer byte,
jsont.cc lines 131-138), and the fourth advance returns End, so the
claimed ObjectEnd token never appears. -/
theorem C1_tokens_bug :
    runTokens 5 (mkT ("[\"a\",\"b\"]".toList)) =
      [(Token.ArrayStart, []), (Token.String, ("\"a\"".toList)),
       (Token.String, ("\"b\"".toList)), (Token.ArrayEnd, []),
       (Token.End, [])] ∧
    runTokens 4 (mkT ("\x7b\"a\":1\x7d".toList)) =
      [(Token.ObjectStart, []), (Token.FieldName, ("\"a\"".toList)),
       (Token.Integer, ("1\x7d".toList)), (Token.End, [])] := by
  constructor
  · decide
  · decide

/-- C2 counterexample: a value-bearing token after which the first
byte past the literal has been consumed.  On the buffer holding the
five bytes of a quoted a, a colon and a 1, the first advance returns
FieldName: the value slice is bytes 0..2 (the quoted literal), yet the
cursor stands at offset 4 — the colon at index 3, the first byte after
the literal, was consumed by the advance, contradicting the claim that
a terminating advance leaves the first byte after the literal
unconsumed for every value-bearing token. -/
theorem C2_counterexample :
    (stepTok (mkT ("\"a\":1".toList))).token = Token.FieldName ∧
    hasValue (stepTok (mkT ("\"a\":1".toList))) = true ∧
    (stepTok (mkT ("\"a\":1".toList))).valueStart = 0 ∧
    (stepTok (mkT ("\"a\":1".toList))).valueLen = 3 ∧
    (stepTok (mkT ("\"a\":1".toList))).offset = 4 := by
  decide

/-- C3: the number-grammar examples.  All listed inputs behave as the
claim states except the buffer holding 1 and a final dot: the claim
requires Error MalformedNumberLiteral (a dot introducer followed by
zero digits), but the scanner returns an Integer token whose slice is
the whole two-byte buffer — readDigits consumes the dot at the last
buffer position without rewinding (jsont.cc lines 131-138, against its
own rewind comment), so readFraction never sees it. -/
theorem C3_number_bug :
    (stepTok (mkT ("42".toList))).token = Token.Integer ∧
    intValue (stepTok (mkT ("42".toList))) = some 42 ∧
    (stepTok (mkT ("42.0".toList))).token = Token.Float ∧
    (stepTok (mkT ("42e3".toList))).token = Token.Float ∧
    (stepTok (mkT ("-0".toList))).token = Token.Integer ∧
    (stepTok (mkT ("-".toList))).token = Token.Error ∧
    (stepTok (mkT ("-".toList))).error = ErrorCode.MalformedNumberLiteral ∧
    (stepTok (mkT ("1.".toList))).token = Token.Integer ∧
    sliceOf (stepTok (mkT ("1.".toList))) = ("1.".toList) := by
  decide

/-- C5: string scanning at end of input.  A truncated string body
yields UnterminatedString, a backslash as the last available byte
yields PrematureEndOfInput, and an unescaped NUL in the body yields
InvalidByte, as the claim states — but a buffer holding only the
opening quote does not: the scan loop never runs, the loop variable
still holds the opening quote, the closing-quote test passes
vacuously, and the scanner returns a String token whose slice is the
lone quote instead of Error UnterminatedString. -/
theorem C5_string_bug :
    (stepTok (mkT ("\"ab".toList))).token = Token.Error ∧
    (stepTok (mkT ("\"ab".toList))).error = ErrorCode.UnterminatedString ∧
    (stepTok (mkT ("\"a\\".toList))).token = Token.Error ∧
    (stepTok (mkT ("\"a\\".toList))).error = ErrorCode.PrematureEndOfInput ∧
    (stepTok (mkT ['"', 'a', Char.ofNat 0, 'b', '"'])).token = Token.Error ∧
    (stepTok (mkT ['"', 'a', Char.ofNat 0, 'b', '"'])).error =
      ErrorCode.InvalidByte ∧
    (stepTok (mkT ['"'])).token = Token.String ∧
    sliceOf (stepTok (mkT ['"'])) = ['"'] := by
  decide

/-- C7: numeric conversion at the buffer boundary.  A buffer holding
only the three digits 123 scans to Integer and converts to 123 through
the bounded-copy branch (no input remains), as the claim states.  But
the claim that neither conversion branch reads beyond the
caller-supplied length fails on the buffer 0xff: the first advance
produces Integer with slice 0 and three bytes of input left, so
floatValue takes the in-place strtod branch, strtod recognises the
hexadecimal form, consumes all four buffer bytes and probes the
terminator at index 4 — the caller-supplied length. -/
theorem C7_conversion_bug :
    (stepTok (mkT ("123".toList))).token = Token.Integer ∧
    availableInput (stepTok (mkT ("123".toList))) = 0 ∧
    intValue (stepTok (mkT ("123".toList))) = some 123 ∧
    (stepTok (mkT ("0xff".toList))).token = Token.Integer ∧
    sliceOf (stepTok (mkT ("0xff".toList))) = ['0'] ∧
    availableInput (stepTok (mkT ("0xff".toList))) = 3 ∧
    strtodProbeIndex (stepTok (mkT ("0xff".toList))) = 4 ∧
    (stepTok (mkT ("0xff".toList))).input.length = 4 := by
  decide

/-- C9: comma misuse.  On the array-with-leading-comma input the first
advance returns ArrayStart and the second Error UnexpectedComma (the
comma follows ArrayStart); on the array-with-trailing-comma input the
third advance — the one that scans past the comma to the closing
bracket — returns Error UnexpectedTrailingComma. -/
theorem C9_comma_errors :
    (stepTok (mkT ("[,1]".toList))).token = Token.ArrayStart ∧
    (stepTok (stepTok (mkT ("[,1]".toList)))).token = Token.Error ∧
    (stepTok (stepTok (mkT ("[,1]".toList)))).error =
      ErrorCode.UnexpectedComma ∧
    (stepTok (mkT ("[1,]".toList))).token = Token.ArrayStart ∧
    (stepTok (stepTok (mkT ("[1,]".toList)))).token = Token.Integer ∧
    (stepTok (stepTok (stepTok (mkT ("[1,]".toList))))).token =
      Token.Error ∧
    (stepTok (stepTok (stepTok (mkT ("[1,]".toList))))).error =
      ErrorCode.UnexpectedTrailingComma := by
  decide

/-- C10 counterexample: the two conversion branches of floatValue
disagree on a valid zero literal.  On the buffer 0x1 the first advance
produces Integer with slice 0 (a valid literal denoting zero, exactly
representable) and two bytes left, so floatValue parses in place and
strtod picks up the hexadecimal form 0x1, returning 1; the bounded
copy of the slice converts to 0. -/
theorem C10_counterexample :
    (stepTok (mkT ("0x1".toList))).token = Token.Integer ∧
    sliceOf (stepTok (mkT ("0x1".toList))) = ['0'] ∧
    availableInput (stepTok (mkT ("0x1".toList))) ≠ 0 ∧
    floatValue (stepTok (mkT ("0x1".toList))) = some 1 ∧
    stodOpt (sliceOf (stepTok (mkT ("0x1".toList)))) = some 0 := by
  decide

end jsont
